import Mathlib

/-!
A shallow embedding of the dto-map-builder front end.

The repository is a React application with five source files; all of its
logic lives in plain functions over JavaScript values: building a JSON
Schema from a user-authored property tree (SchemaBuilder.tsx), extracting
dot-notation leaf paths from a schema (VisualMapping.tsx), a small mapping
state updated by three handlers (VisualMapping.tsx), coercion of literal
default strings and assembly of the configuration payload
(GeneratedOutput.tsx), and JSON validation plus the DTO-generation flow
(ApiSpecInput.tsx).

JavaScript values are modelled by the inductive type JsValue below; plain
objects are association lists with distinct keys kept in insertion order,
which is how the ECMAScript object model behaves for the string keys this
code uses, except that integer-index-like keys are enumerated first by
Object.keys / Object.entries, which is modelled explicitly.  Numbers are
modelled as exact decimal floats extended with the two infinities; no code
path in this repository stores NaN in a data structure, and no claim
depends on IEEE-754 rounding.
-/

namespace DtoMap

/-- JavaScript numeric values as far as this code base observes them:
finite numbers and the two infinities.  This code base never does
arithmetic on stored numbers — it only parses and compares them — so a
finite value is carried exactly as a canonical decimal float m * 10^e
(with 10 not dividing m unless m = 0, and then e = 0); mkFinite below is
the only constructor used, so equality of values is equality of
representations. -/
inductive JsNum where
  | finite (m : ℤ) (e : ℤ)
  | inf
  | negInf
deriving DecidableEq, Repr

/-- Strip factors of ten from the mantissa into the exponent; fuel bounds
the number of steps. -/
def stripTens : ℕ → ℤ → ℤ → ℤ × ℤ
  | 0, m, e => (m, e)
  | Nat.succ fuel, m, e =>
    if m ≠ 0 ∧ m % 10 = 0 then stripTens fuel (m / 10) (e + 1) else (m, e)

/-- The canonical finite JavaScript number m * 10^e. -/
def mkFinite (m e : ℤ) : JsNum :=
  if m = 0 then .finite 0 0
  else
    let p := stripTens m.natAbs m e
    .finite p.1 p.2

/-- Negation of a JavaScript number (canonical form is preserved). -/
def negJsNum : JsNum → JsNum
  | .finite m e => .finite (-m) e
  | .inf => .negInf
  | .negInf => .inf

/-- JavaScript runtime values.  Objects are association lists of string
keys and values, kept in insertion order with distinct keys (as the
ECMAScript object model guarantees for the objects this code builds). -/
inductive JsValue where
  | undef
  | null
  | bool (b : Bool)
  | num (n : JsNum)
  | str (s : String)
  | arr (elems : List JsValue)
  | obj (fields : List (String × JsValue))
deriving Repr

mutual

def decJsValue (v1 v2 : JsValue) : Decidable (v1 = v2) := by
  cases v1 <;> cases v2 <;>
    try { apply isFalse; intro h; injection h }
  case undef.undef | null.null => exact isTrue rfl
  case bool.bool b1 b2 =>
    exact match decEq b1 b2 with
    | isTrue h => isTrue (by rw [h])
    | isFalse _ => isFalse (by intro h; injection h; contradiction)
  case num.num n1 n2 =>
    exact match decEq n1 n2 with
    | isTrue h => isTrue (by rw [h])
    | isFalse _ => isFalse (by intro h; injection h; contradiction)
  case str.str s1 s2 =>
    exact match decEq s1 s2 with
    | isTrue h => isTrue (by rw [h])
    | isFalse _ => isFalse (by intro h; injection h; contradiction)
  case arr.arr l1 l2 =>
    exact match decJsValueList l1 l2 with
    | isTrue h => isTrue (by rw [h])
    | isFalse h1 => isFalse (by intro h2; injection h2; contradiction)
  case obj.obj f1 f2 =>
    exact match decJsFieldList f1 f2 with
    | isTrue h => isTrue (by rw [h])
    | isFalse h1 => isFalse (by intro h2; injection h2; contradiction)

def decJsValueList (l1 l2 : List JsValue) : Decidable (l1 = l2) :=
  match l1, l2 with
  | [], [] => isTrue rfl
  | _ :: _, [] | [], _ :: _ => isFalse (by intro; contradiction)
  | v1 :: r1, v2 :: r2 =>
    match decJsValue v1 v2, decJsValueList r1 r2 with
    | isTrue h1, isTrue h2 => isTrue (by rw [h1, h2])
    | isFalse _, _ | _, isFalse _ =>
      isFalse (by intro h; injection h; contradiction)

def decJsFieldList (l1 l2 : List (String × JsValue)) : Decidable (l1 = l2) :=
  match l1, l2 with
  | [], [] => isTrue rfl
  | _ :: _, [] | [], _ :: _ => isFalse (by intro; contradiction)
  | (k1, v1) :: r1, (k2, v2) :: r2 =>
    match decEq k1 k2, decJsValue v1 v2, decJsFieldList r1 r2 with
    | isTrue h1, isTrue h2, isTrue h3 => isTrue (by rw [h1, h2, h3])
    | isFalse _, _, _ | _, isFalse _, _ | _, _, isFalse _ =>
      isFalse (by simp only [List.cons.injEq, Prod.mk.injEq]
                  intro h
                  obtain ⟨⟨hk, hv⟩, hr⟩ := h
                  contradiction)

end

instance : DecidableEq JsValue := decJsValue

/-- First binding of a key in an association list (JavaScript property
lookup on a plain object). -/
def jsLookup : List (String × JsValue) → String → Option JsValue
  | [], _ => none
  | (k, v) :: rest, key => if k = key then some v else jsLookup rest key

/-- JavaScript property assignment o[k] = v on a plain object: an existing
key keeps its position and gets the new value, a fresh key is appended. -/
def jsAssign (o : List (String × JsValue)) (k : String) (v : JsValue) :
    List (String × JsValue) :=
  if o.any (fun kv => kv.1 = k) then
    o.map (fun kv => if kv.1 = k then (k, v) else kv)
  else o ++ [(k, v)]

/-- Object-spread semantics: spread the bindings of the second object onto
the first, one assignment per binding. -/
def jsSpread (base extra : List (String × JsValue)) : List (String × JsValue) :=
  extra.foldl (fun acc kv => jsAssign acc kv.1 kv.2) base

/-- Drop later duplicates of a key, keeping the first occurrence; seen
holds the keys already emitted. -/
def dedupKeysAux (seen : List String) :
    List (String × JsValue) → List (String × JsValue)
  | [] => []
  | (k, v) :: rest =>
    if k ∈ seen then dedupKeysAux seen rest
    else (k, v) :: dedupKeysAux (k :: seen) rest

/-- Drop later duplicates of a key, keeping the first occurrence (real
JavaScript objects never hold a key twice; the association-list model can,
so enumeration deduplicates). -/
def dedupKeys (fields : List (String × JsValue)) : List (String × JsValue) :=
  dedupKeysAux [] fields

/-- Numeric value of a digit string (0 for other characters). -/
def digitsToNat (s : String) : ℕ :=
  s.data.foldl (fun acc c => 10 * acc + (c.toNat - '0'.toNat)) 0

/-- Whether a string is a canonical ECMAScript array index: a digits-only
string with no leading zero (except "0" itself) denoting an integer below
2^32 - 1.  Such keys are enumerated first, in ascending numeric order, by
Object.keys and Object.entries. -/
def isArrayIndexName (s : String) : Bool :=
  s ≠ "" && s.data.all (fun c => c.isDigit) &&
    (s = "0" || s.data.head? ≠ some '0') &&
    digitsToNat s < 2 ^ 32 - 1

/-- Insert a binding into a list sorted by numeric key value. -/
def insertByNum (x : String × JsValue) :
    List (String × JsValue) → List (String × JsValue)
  | [] => [x]
  | y :: ys =>
    if digitsToNat x.1 ≤ digitsToNat y.1 then x :: y :: ys
    else y :: insertByNum x ys

/-- Insertion sort by numeric key value (used for array-index keys). -/
def sortByNum : List (String × JsValue) → List (String × JsValue)
  | [] => []
  | x :: xs => insertByNum x (sortByNum xs)

/-- The key/value pairs of an object in the order Object.keys /
Object.entries enumerates them: array-index keys first in ascending
numeric order, then the remaining string keys in insertion order. -/
def jsOrderedEntries (fields : List (String × JsValue)) :
    List (String × JsValue) :=
  let ds := dedupKeys fields
  sortByNum (ds.filter (fun kv => isArrayIndexName kv.1)) ++
    ds.filter (fun kv => ! isArrayIndexName kv.1)

/-- JavaScript truthiness of a value.  (NaN is never stored by this code
base, so it does not appear among the falsy cases.) -/
def jsTruthy : JsValue → Bool
  | .undef => false
  | .null => false
  | .bool b => b
  | .num (.finite m _) => m ≠ 0
  | .num _ => true
  | .str s => s ≠ ""
  | .arr _ => true
  | .obj _ => true

/-- JavaScript property read v.k, yielding undefined when absent.
Property access on primitives and arrays with a non-index name yields
undefined; no code path here reads an index property of a non-object. -/
def jsGet (v : JsValue) (k : String) : JsValue :=
  match v with
  | .obj fields => (jsLookup fields k).getD JsValue.undef
  | _ => JsValue.undef

/-! ### JSON.parse -/

/-- JSON insignificant whitespace: space, tab, line feed, carriage
return. -/
def jsonWs (c : Char) : Bool :=
  c = ' ' || c = '\t' || c = '\n' || c = '\r'

/-- Skip JSON whitespace. -/
def skipWs : List Char → List Char
  | [] => []
  | c :: rest => if jsonWs c then skipWs rest else c :: rest

/-- Value of a hexadecimal digit. -/
def hexDigitVal (c : Char) : Option ℕ :=
  if c.isDigit then some (c.toNat - '0'.toNat)
  else if 'a' ≤ c ∧ c ≤ 'f' then some (c.toNat - 'a'.toNat + 10)
  else if 'A' ≤ c ∧ c ≤ 'F' then some (c.toNat - 'A'.toNat + 10)
  else none

/-- Body of a JSON string after the opening quote, with the escape
sequences of the JSON grammar.  A \u escape denoting an invalid scalar
value (a lone surrogate) maps to the null character; no input in this
development contains one. -/
def parseStringBody (acc : List Char) : List Char → Option (String × List Char)
  | [] => none
  | '"' :: rest => some (String.mk acc.reverse, rest)
  | '\\' :: esc =>
    match esc with
    | '"' :: rest => parseStringBody ('"' :: acc) rest
    | '\\' :: rest => parseStringBody ('\\' :: acc) rest
    | '/' :: rest => parseStringBody ('/' :: acc) rest
    | 'b' :: rest => parseStringBody ('\x08' :: acc) rest
    | 'f' :: rest => parseStringBody ('\x0c' :: acc) rest
    | 'n' :: rest => parseStringBody ('\n' :: acc) rest
    | 'r' :: rest => parseStringBody ('\r' :: acc) rest
    | 't' :: rest => parseStringBody ('\t' :: acc) rest
    | 'u' :: h1 :: h2 :: h3 :: h4 :: rest =>
      match hexDigitVal h1, hexDigitVal h2, hexDigitVal h3, hexDigitVal h4 with
      | some a, some b, some c, some d =>
        parseStringBody (Char.ofNat (((a * 16 + b) * 16 + c) * 16 + d) :: acc) rest
      | _, _, _, _ => none
    | _ => none
  | c :: rest =>
    if c.toNat < 0x20 then none else parseStringBody (c :: acc) rest

/-- Longest digit prefix of a character list, and the remainder. -/
def spanDigits : List Char → List Char × List Char
  | [] => ([], [])
  | c :: rest =>
    if c.isDigit then
      let (ds, r) := spanDigits rest
      (c :: ds, r)
    else ([], c :: rest)

/-- Numeric value of a list of decimal digits. -/
def digitsVal (ds : List Char) : ℕ :=
  ds.foldl (fun a c => 10 * a + (c.toNat - '0'.toNat)) 0

/-- A JSON number literal at the head of the input, per the JSON grammar:
an optional minus sign, an integer part with no leading zero, an optional
fraction (at least one digit), an optional exponent (at least one digit).
A malformed fraction or exponent fails the literal, as JSON.parse does. -/
def parseJsonNumber (l : List Char) : Option (JsNum × List Char) :=
  let signed : Bool × List Char := match l with
    | '-' :: r => (true, r)
    | _ => (false, l)
  match spanDigits signed.2 with
  | ([], _) => none
  | (ds, r1) =>
    if 1 < ds.length && ds.head? = some '0' then none
    else
      let fracStep : Option (List Char × List Char) := match r1 with
        | '.' :: r =>
          match spanDigits r with
          | ([], _) => none
          | (fs, r2) => some (fs, r2)
        | _ => some ([], r1)
      match fracStep with
      | none => none
      | some (fs, r2) =>
        let expStep : Option (ℤ × List Char) := match r2 with
          | 'e' :: r3 | 'E' :: r3 =>
            let esigned : Bool × List Char := match r3 with
              | '+' :: r4 => (false, r4)
              | '-' :: r4 => (true, r4)
              | _ => (false, r3)
            match spanDigits esigned.2 with
            | ([], _) => none
            | (es, r5) =>
              some (if esigned.1 then -(digitsVal es : ℤ) else (digitsVal es : ℤ), r5)
          | _ => some (0, r2)
        match expStep with
        | none => none
        | some (ex, r6) =>
          let mag : JsNum :=
            mkFinite (digitsVal (ds ++ fs) : ℤ) (ex - fs.length)
          some (if signed.1 then negJsNum mag else mag, r6)

mutual

/-- A JSON value at the head of the input (fuel-indexed recursive-descent
parser; the fuel passed by jsonParse always suffices, since every level of
recursion consumes at least one character). -/
def parseJsonVal : ℕ → List Char → Option (JsValue × List Char)
  | 0, _ => none
  | Nat.succ fuel, l =>
    match skipWs l with
    | 't' :: 'r' :: 'u' :: 'e' :: rest => some (.bool true, rest)
    | 'f' :: 'a' :: 'l' :: 's' :: 'e' :: rest => some (.bool false, rest)
    | 'n' :: 'u' :: 'l' :: 'l' :: rest => some (.null, rest)
    | '"' :: rest =>
      match parseStringBody [] rest with
      | some (s, r) => some (.str s, r)
      | none => none
    | '[' :: rest =>
      (match skipWs rest with
       | ']' :: r2 => some (.arr [], r2)
       | _ =>
         match parseJsonItems fuel rest [] with
         | some (items, r2) => some (.arr items, r2)
         | none => none)
    | '\x7b' :: rest =>
      (match skipWs rest with
       | '\x7d' :: r2 => some (.obj [], r2)
       | _ =>
         match parseJsonMembers fuel rest [] with
         | some (fields, r2) => some (.obj fields, r2)
         | none => none)
    | l2 =>
      match parseJsonNumber l2 with
      | some (n, r) => some (.num n, r)
      | none => none

/-- Comma-separated JSON array items up to the closing bracket. -/
def parseJsonItems :
    ℕ → List Char → List JsValue → Option (List JsValue × List Char)
  | 0, _, _ => none
  | Nat.succ fuel, l, acc =>
    match parseJsonVal fuel l with
    | none => none
    | some (v, r) =>
      match skipWs r with
      | ',' :: r2 => parseJsonItems fuel r2 (acc ++ [v])
      | ']' :: r2 => some (acc ++ [v], r2)
      | _ => none

/-- Comma-separated JSON object members up to the closing brace.  A
repeated key overwrites the earlier value in place, as JSON.parse does. -/
def parseJsonMembers :
    ℕ → List Char → List (String × JsValue) →
      Option (List (String × JsValue) × List Char)
  | 0, _, _ => none
  | Nat.succ fuel, l, acc =>
    match skipWs l with
    | '"' :: rest =>
      (match parseStringBody [] rest with
       | none => none
       | some (key, r1) =>
         match skipWs r1 with
         | ':' :: r2 =>
           (match parseJsonVal fuel r2 with
            | none => none
            | some (v, r3) =>
              let acc2 := jsAssign acc key v
              match skipWs r3 with
              | ',' :: r4 => parseJsonMembers fuel r4 acc2
              | '\x7d' :: r4 => some (acc2, r4)
              | _ => none)
         | _ => none)
    | _ => none

end

/-- JSON.parse: a complete JSON text, with only whitespace allowed after
the value; returns none where JSON.parse throws. -/
def jsonParse (s : String) : Option JsValue :=
  match parseJsonVal (2 * s.length + 2) s.data with
  | some (v, rest) => if skipWs rest = [] then some v else none
  | none => none

/-! ### Number( ), parseFloat and String.prototype.trim -/

/-- The ECMAScript WhiteSpace and LineTerminator characters (the set used
by String.prototype.trim, Number and parseFloat). -/
def jsWsChar (c : Char) : Bool :=
  c = ' ' || c = '\t' || c = '\n' || c = '\r' || c = '\x0b' || c = '\x0c' ||
    c = '\xa0' || c = '\u2028' || c = '\u2029' || c = '\ufeff'

/-- Trim JavaScript whitespace from both ends of a character list. -/
def jsTrimList (l : List Char) : List Char :=
  ((l.dropWhile (fun c => jsWsChar c)).reverse.dropWhile
    (fun c => jsWsChar c)).reverse

/-- String.prototype.trim. -/
def jsTrim (s : String) : String :=
  String.mk (jsTrimList s.data)

/-- Digit value of a character in the given base, when valid. -/
def radixDigitVal (base : ℕ) (c : Char) : Option ℕ :=
  match hexDigitVal c with
  | some v => if v < base then some v else none
  | none => none

/-- Value of a digit list in the given base, when every digit is valid
and the list is non-empty. -/
def radixVal (base : ℕ) (ds : List Char) : Option ℕ :=
  match ds with
  | [] => none
  | _ =>
    ds.foldl
      (fun acc c =>
        match acc, radixDigitVal base c with
        | some a, some v => some (base * a + v)
        | _, _ => none)
      (some 0)

/-- A StrUnsignedDecimalLiteral other than Infinity at the head of the
input: digits, an optional dot with optional further digits, an optional
well-formed exponent (a malformed exponent is simply not consumed, as in
parseFloat).  Fails when no digit appears on either side of the dot. -/
def parseDecPrefix (l : List Char) : Option (JsNum × List Char) :=
  let intStep := spanDigits l
  let fracStep : List Char × List Char := match intStep.2 with
    | '.' :: r => spanDigits r
    | _ => ([], intStep.2)
  if intStep.1 = [] ∧ fracStep.1 = [] then none
  else
    let expStep : ℤ × List Char := match fracStep.2 with
      | 'e' :: r3 | 'E' :: r3 =>
        let esigned : Bool × List Char := match r3 with
          | '+' :: r4 => (false, r4)
          | '-' :: r4 => (true, r4)
          | _ => (false, r3)
        match spanDigits esigned.2 with
        | ([], _) => (0, fracStep.2)
        | (es, r5) =>
          (if esigned.1 then -(digitsVal es : ℤ) else (digitsVal es : ℤ), r5)
      | _ => (0, fracStep.2)
    some
      (mkFinite (digitsVal (intStep.1 ++ fracStep.1) : ℤ)
          (expStep.1 - fracStep.1.length),
        expStep.2)

/-- The ECMAScript ToNumber coercion of a string (Number(s)); none stands
for NaN.  Finite values are modelled exactly as rationals rather than
rounded to binary64; no claim depends on the rounding. -/
def jsNumberOf (s : String) : Option JsNum :=
  let t := jsTrimList s.data
  match t with
  | [] => some (.finite 0 0)
  | '0' :: c :: rest =>
    if c = 'x' ∨ c = 'X' then (radixVal 16 rest).map (fun n => mkFinite n 0)
    else if c = 'o' ∨ c = 'O' then (radixVal 8 rest).map (fun n => mkFinite n 0)
    else if c = 'b' ∨ c = 'B' then (radixVal 2 rest).map (fun n => mkFinite n 0)
    else jsNumberDecimal t
  | _ => jsNumberDecimal t
where
  /-- The signed decimal / Infinity cases of ToNumber, applied to the
  already trimmed character list; the whole list must be consumed. -/
  jsNumberDecimal (t : List Char) : Option JsNum :=
    let signed : Bool × List Char := match t with
      | '+' :: r => (false, r)
      | '-' :: r => (true, r)
      | _ => (false, t)
    if signed.2 = "Infinity".data then
      some (if signed.1 then .negInf else .inf)
    else
      match parseDecPrefix signed.2 with
      | some (n, []) => some (if signed.1 then negJsNum n else n)
      | _ => none

/-- Whether parseFloat(s) yields a number rather than NaN: after leading
whitespace and an optional sign, the input starts with Infinity, a digit,
or a dot followed by a digit. -/
def jsParseFloatDefined (s : String) : Bool :=
  let t := s.data.dropWhile (fun c => jsWsChar c)
  let t2 : List Char := match t with
    | '+' :: r => r
    | '-' :: r => r
    | _ => t
  if t2.take 8 = "Infinity".data then true
  else
    match t2 with
    | '.' :: c :: _ => c.isDigit
    | c :: _ => c.isDigit
    | [] => false

/-! ### SchemaBuilder.tsx: the user-authored property tree and
generateJsonSchema -/

/-- The type field of a schema property (SchemaBuilder.tsx). -/
inductive PropType where
  | string
  | number
  | integer
  | short
  | boolean
  | object
deriving DecidableEq, Repr

/-- The string this type renders as in the generated schema. -/
def PropType.jsonName : PropType → String
  | .string => "string"
  | .number => "number"
  | .integer => "integer"
  | .short => "short"
  | .boolean => "boolean"
  | .object => "object"

/-- A user-authored schema property (interface SchemaProperty in
SchemaBuilder.tsx). -/
structure SchemaProperty where
  id : String
  name : String
  type : PropType
  required : Bool
  properties : List SchemaProperty
  isOpen : Bool

/-- The properties object built by the forEach loop of generateJsonSchema:
properties with an empty name are skipped; an object property renders as
the literal spread of the recursive schema onto a type tag, any other
property as a bare type tag; assignment to schema.properties models the
JavaScript computed-key assignment. -/
def genEntries :
    List SchemaProperty → List (String × JsValue) → List (String × JsValue)
  | [], acc => acc
  | p :: rest, acc =>
    if p.name = "" then genEntries rest acc
    else
      genEntries rest (jsAssign acc p.name
        (match p.type with
         | .object =>
           .obj (jsSpread [("type", .str "object")]
             [("type", .str "object"), ("properties", .obj (genEntries p.properties []))])
         | t => .obj [("type", .str t.jsonName)]))
termination_by props _ => sizeOf props
decreasing_by
  all_goals cases p
  all_goals simp
  all_goals omega

/-- generateJsonSchema from SchemaBuilder.tsx. -/
def generateJsonSchema (props : List SchemaProperty) : JsValue :=
  .obj [("type", .str "object"), ("properties", .obj (genEntries props []))]

/-! ### VisualMapping.tsx: extractFields -/

theorem mem_insertByNum {x y : String × JsValue}
    {l : List (String × JsValue)} (h : x ∈ insertByNum y l) :
    x = y ∨ x ∈ l := by
  induction l with
  | nil => simpa [insertByNum] using h
  | cons z zs ih =>
    simp only [insertByNum] at h
    by_cases hc : digitsToNat y.1 ≤ digitsToNat z.1
    · simp [hc] at h
      rcases h with h | h | h
      · exact Or.inl h
      · exact Or.inr (by simp [h])
      · exact Or.inr (by simp [h])
    · simp [hc] at h
      rcases h with h | h
      · exact Or.inr (by simp [h])
      · rcases ih h with h2 | h2
        · exact Or.inl h2
        · exact Or.inr (by simp [h2])

theorem mem_sortByNum {x : String × JsValue} {l : List (String × JsValue)}
    (h : x ∈ sortByNum l) : x ∈ l := by
  induction l with
  | nil => simpa [sortByNum] using h
  | cons z zs ih =>
    simp only [sortByNum] at h
    rcases mem_insertByNum h with h2 | h2
    · simp [h2]
    · simp [ih h2]

theorem mem_dedupKeysAux {x : String × JsValue} :
    ∀ (seen : List String) (l : List (String × JsValue)),
      x ∈ dedupKeysAux seen l → x ∈ l := by
  intro seen l
  induction l generalizing seen with
  | nil => simp [dedupKeysAux]
  | cons z zs ih =>
    intro h
    match z with
    | (k, v) =>
      simp only [dedupKeysAux] at h
      by_cases hk : k ∈ seen
      · simp [hk] at h
        exact List.mem_cons_of_mem _ (ih _ h)
      · simp [hk] at h
        rcases h with h | h
        · simp [h]
        · exact List.mem_cons_of_mem _ (ih _ h)

theorem mem_jsOrderedEntries {x : String × JsValue}
    {l : List (String × JsValue)} (h : x ∈ jsOrderedEntries l) : x ∈ l := by
  simp only [jsOrderedEntries, List.mem_append] at h
  rcases h with h | h
  · exact mem_dedupKeysAux _ _ (List.mem_of_mem_filter (mem_sortByNum h))
  · exact mem_dedupKeysAux _ _ (List.mem_of_mem_filter h)

theorem jsLookup_mem {l : List (String × JsValue)} {k : String} {v : JsValue}
    (h : jsLookup l k = some v) : (k, v) ∈ l := by
  induction l with
  | nil => simp [jsLookup] at h
  | cons z zs ih =>
    match z with
    | (k2, v2) =>
      simp only [jsLookup] at h
      by_cases hk : k2 = k
      · simp [hk] at h
        simp [hk, h]
      · simp [hk] at h
        exact List.mem_cons_of_mem _ (ih h)

theorem sizeOf_snd_lt_of_mem {kv : String × JsValue}
    {l : List (String × JsValue)} (h : kv ∈ l) : sizeOf kv.2 < sizeOf l := by
  have h1 : sizeOf kv < sizeOf l := List.sizeOf_lt_of_mem h
  have h2 : sizeOf kv.2 < sizeOf kv := by
    match kv with
    | (k, v) => simp
  omega

theorem sizeOf_insertByNum (x : String × JsValue)
    (l : List (String × JsValue)) :
    sizeOf (insertByNum x l) = 1 + sizeOf x + sizeOf l := by
  induction l with
  | nil => simp [insertByNum]
  | cons y ys ih =>
    by_cases hc : digitsToNat x.1 ≤ digitsToNat y.1
    · simp [insertByNum, hc] <;> omega
    · simp [insertByNum, hc, ih] <;> omega

theorem sizeOf_sortByNum (l : List (String × JsValue)) :
    sizeOf (sortByNum l) = sizeOf l := by
  induction l with
  | nil => simp [sortByNum]
  | cons y ys ih =>
    simp [sortByNum, sizeOf_insertByNum, ih]

theorem sizeOf_dedupKeysAux (seen : List String)
    (l : List (String × JsValue)) :
    sizeOf (dedupKeysAux seen l) ≤ sizeOf l := by
  induction l generalizing seen with
  | nil => simp [dedupKeysAux]
  | cons y ys ih =>
    match y with
    | (k, v) =>
      by_cases hk : k ∈ seen
      · have := ih seen
        simp only [dedupKeysAux, if_pos hk]
        simp only [List.cons.sizeOf_spec]
        omega
      · have := ih (k :: seen)
        simp only [dedupKeysAux, if_neg hk]
        simp only [List.cons.sizeOf_spec]
        omega

theorem sizeOf_filter_index (l : List (String × JsValue)) :
    sizeOf (l.filter (fun kv => isArrayIndexName kv.1)) +
      sizeOf (l.filter (fun kv => ! isArrayIndexName kv.1)) =
      sizeOf l + 1 := by
  induction l with
  | nil => simp
  | cons y ys ih =>
    by_cases hp : isArrayIndexName y.1
    · simp [List.filter_cons, hp] <;> omega
    · simp [List.filter_cons, hp] <;> omega

theorem sizeOf_append_pair (a b : List (String × JsValue)) :
    sizeOf (a ++ b) + 1 = sizeOf a + sizeOf b := by
  induction a with
  | nil =>
    simp
    omega
  | cons y ys ih =>
    simp
    omega

theorem sizeOf_jsOrderedEntries (l : List (String × JsValue)) :
    sizeOf (jsOrderedEntries l) ≤ sizeOf l + 1 := by
  simp only [jsOrderedEntries]
  have h1 := sizeOf_append_pair
    (sortByNum ((dedupKeys l).filter (fun kv => isArrayIndexName kv.1)))
    ((dedupKeys l).filter (fun kv => ! isArrayIndexName kv.1))
  have h2 := sizeOf_sortByNum
    ((dedupKeys l).filter (fun kv => isArrayIndexName kv.1))
  have h3 := sizeOf_filter_index (dedupKeys l)
  have h4 := sizeOf_dedupKeysAux [] l
  simp only [dedupKeys] at *
  omega

mutual

/-- extractFields from VisualMapping.tsx: walk a schema value, collecting
the dot-notation path of every non-object property, in the order
Object.keys enumerates the properties objects.  Enumerating a truthy
properties value that is not a plain object contributes nothing (no
schema in this development carries one; in JavaScript only exotic cases
such as boxed strings would). -/
def extractFields (v : JsValue) (pre : String) : List String :=
  match v with
  | .obj fields =>
    if jsGet (.obj fields) "type" = .str "object" ∧
        jsTruthy (jsGet (.obj fields) "properties") then
      match h : jsLookup fields "properties" with
      | some (.obj pfs) => extractEntryList (jsOrderedEntries pfs) pre
      | _ => []
    else []
  | _ => []
termination_by sizeOf v
decreasing_by
  have h2 : (("properties" : String), JsValue.obj pfs) ∈ fields :=
    jsLookup_mem h
  have h3 : sizeOf (("properties" : String), JsValue.obj pfs) <
      sizeOf fields := List.sizeOf_lt_of_mem h2
  have h4 := sizeOf_jsOrderedEntries pfs
  simp at h3 ⊢
  omega

/-- The body of the Object.keys(obj.properties).forEach loop of
extractFields, one key at a time: an object-typed property with a truthy
properties value recurses under the extended path, anything else is a
leaf contributing its path. -/
def extractEntryList (entries : List (String × JsValue)) (pre : String) :
    List String :=
  match entries with
  | [] => []
  | (key, property) :: rest =>
    let cur := if pre = "" then key else pre ++ "." ++ key
    (if jsGet property "type" = .str "object" ∧
        jsTruthy (jsGet property "properties") then
      extractFields property cur
    else [cur]) ++ extractEntryList rest pre
termination_by sizeOf entries
decreasing_by
  all_goals simp <;> omega

end

/-! ### VisualMapping.tsx: the predefined target fields and the mapping
state -/

/-- One entry of BASE_REQUEST_FIELDS. -/
structure BaseRequestField where
  name : String
  type : String
  description : String
deriving DecidableEq, Repr

/-- The fixed list of predefined target fields (BASE_REQUEST_FIELDS in
VisualMapping.tsx). -/
def BASE_REQUEST_FIELDS : List BaseRequestField :=
  [⟨"sourceLocation.lat", "number", "Source latitude coordinate"⟩,
   ⟨"sourceLocation.lng", "number", "Source longitude coordinate"⟩,
   ⟨"sourceLocation.name", "string", "Source location name"⟩,
   ⟨"sourceLocation.postcode", "string", "Source postal code"⟩,
   ⟨"currentLocation.lat", "number", "Current latitude coordinate"⟩,
   ⟨"currentLocation.lng", "number", "Current longitude coordinate"⟩,
   ⟨"destinationLocation.address", "string", "Destination full address"⟩,
   ⟨"userType", "string", "Type of user making request"⟩]

/-- Computed-key insertion on a string-valued record
(the spread-with-computed-key pattern of the setState updaters). -/
def assocSet (l : List (String × String)) (k v : String) :
    List (String × String) :=
  if l.any (fun kv => kv.1 = k) then
    l.map (fun kv => if kv.1 = k then (k, v) else kv)
  else l ++ [(k, v)]

/-- The delete operator on a string-valued record. -/
def assocDelete (l : List (String × String)) (k : String) :
    List (String × String) :=
  l.filter (fun kv => kv.1 ≠ k)

/-- The two useState records of VisualMapping: fieldMapping maps a
predefined field to a schema path, defaults to an entered literal. -/
structure MapState where
  fieldMapping : List (String × String)
  defaults : List (String × String)
deriving DecidableEq, Repr

/-- Both records start empty. -/
def emptyMapState : MapState := ⟨[], []⟩

/-- handleFieldMapping from VisualMapping.tsx: choosing USE_DEFAULT only
deletes the field from fieldMapping; choosing a schema path stores it in
fieldMapping and deletes any default for the field. -/
def handleFieldMapping (s : MapState) (baseField apiField : String) :
    MapState :=
  if apiField = "USE_DEFAULT" then
    { s with fieldMapping := assocDelete s.fieldMapping baseField }
  else
    { fieldMapping := assocSet s.fieldMapping baseField apiField,
      defaults := assocDelete s.defaults baseField }

/-- handleDefaultValue from VisualMapping.tsx: stores the entered literal
in defaults (and touches nothing else). -/
def handleDefaultValue (s : MapState) (baseField value : String) : MapState :=
  { s with defaults := assocSet s.defaults baseField value }

/-- clearMapping from VisualMapping.tsx: deletes the field from both
records. -/
def clearMapping (s : MapState) (baseField : String) : MapState :=
  { fieldMapping := assocDelete s.fieldMapping baseField,
    defaults := assocDelete s.defaults baseField }

/-- One user interaction with the mapping card. -/
inductive MapOp where
  | fieldMap (baseField apiField : String)
  | defaultVal (baseField value : String)
  | clear (baseField : String)
deriving DecidableEq, Repr

/-- Apply one interaction to the state. -/
def applyOp (s : MapState) : MapOp → MapState
  | .fieldMap b a => handleFieldMapping s b a
  | .defaultVal b v => handleDefaultValue s b v
  | .clear b => clearMapping s b

/-- Apply a sequence of interactions in order. -/
def applyOps (s : MapState) (ops : List MapOp) : MapState :=
  ops.foldl applyOp s

/-- The predefined field an interaction addresses. -/
def MapOp.baseField : MapOp → String
  | .fieldMap b _ => b
  | .defaultVal b _ => b
  | .clear b => b

/-- No field carries both a schema path and a default value. -/
def keysDisjoint (s : MapState) : Bool :=
  s.fieldMapping.all (fun kv => s.defaults.all (fun kv2 => kv2.1 ≠ kv.1))

/-! ### GeneratedOutput.tsx: parseValue, the configuration payload and
the three endpoint calls -/

/-- Whether the first list is an initial segment of the second. -/
def headMatches : List Char → List Char → Bool
  | [], _ => true
  | _ :: _, [] => false
  | c :: cs, d :: ds => c = d && headMatches cs ds

/-- String.prototype.startsWith. -/
def jsStartsWith (s pat : String) : Bool :=
  headMatches pat.data s.data

/-- String.prototype.endsWith. -/
def jsEndsWith (s pat : String) : Bool :=
  headMatches pat.data.reverse s.data.reverse

/-- String.prototype.toLowerCase (ASCII; every class name in scope is
ASCII). -/
def jsToLower (s : String) : String :=
  String.mk (s.data.map Char.toLower)

/-- Remove the last n characters. -/
def jsDropLast (s : String) (n : ℕ) : String :=
  String.mk (s.data.take (s.data.length - n))

/-- parseValue from GeneratedOutput.tsx: coerce a literal default to its
proper type.  Non-strings pass through; the strings true / false / null
become the corresponding values; bracketed and braced strings become
their JSON.parse result when that parse succeeds; strings on which both
Number and parseFloat are non-NaN become Number of the string; everything
else stays a string. -/
def parseValue (value : JsValue) : JsValue :=
  match value with
  | .str s =>
    if s = "true" then .bool true
    else if s = "false" then .bool false
    else if s = "null" then .null
    else if jsStartsWith s "[" && jsEndsWith s "]" then
      match jsonParse s with
      | some v => v
      | none => .str s
    else if jsStartsWith s "\x7b" && jsEndsWith s "\x7d" then
      match jsonParse s with
      | some v => v
      | none => .str s
    else if (jsNumberOf s).isSome && jsParseFloatDefined s then
      match jsNumberOf s with
      | some n => .num n
      | none => .str s
    else .str s
  | v => v

/-- className.toLowerCase().replace(/request$/, ''), the b2bName field of
the configuration (toLowerCase modelled by the ASCII String.toLower; all
class names in scope are ASCII). -/
def b2bNameOf (className : String) : String :=
  let lower := jsToLower className
  if jsEndsWith lower "request" then jsDropLast lower 7 else lower

/-- The fieldMapping component of configJson: the fieldMapping record
spread first, then, when present and not undefined, the two
currentLocation defaults assigned on top after coercion by parseValue. -/
def cfgFieldMappingEntries (fm : List (String × String))
    (d : List (String × JsValue)) : List (String × JsValue) :=
  let base := jsSpread [] (fm.map (fun kv => (kv.1, JsValue.str kv.2)))
  let latPart : List (String × JsValue) :=
    match jsLookup d "currentLocation.lat" with
    | some v => if v ≠ .undef then [("currentLocation.lat", parseValue v)] else []
    | none => []
  let lngPart : List (String × JsValue) :=
    match jsLookup d "currentLocation.lng" with
    | some v => if v ≠ .undef then [("currentLocation.lng", parseValue v)] else []
    | none => []
  jsSpread (jsSpread base latPart) lngPart

/-- The defaults component of configJson: Object.entries(defaults) with
the two currentLocation keys filtered out and every value coerced by
parseValue (Object.fromEntries of a duplicate-free entry list is the
list itself). -/
def cfgDefaultsEntries (d : List (String × JsValue)) :
    List (String × JsValue) :=
  ((jsOrderedEntries d).filter (fun kv =>
      kv.1 != "currentLocation.lat" && kv.1 != "currentLocation.lng")).map
    (fun kv => (kv.1, parseValue kv.2))

/-- The configJson object literal of GeneratedOutput.tsx. -/
def configJson (fm : List (String × String)) (d : List (String × JsValue))
    (className : String) : JsValue :=
  .obj [
    ("b2bName", .str (b2bNameOf className)),
    ("requestClass", .str ("com.example.demoVersion.dto." ++ className)),
    ("fieldMapping", .obj (cfgFieldMappingEntries fm d)),
    ("defaults", .obj (cfgDefaultsEntries d))]

/-- A POST request as issued through fetch: the URL and the value passed
to JSON.stringify as the body. -/
structure HttpPost where
  url : String
  body : JsValue
deriving DecidableEq, Repr

/-- The request issued by previewMapping. -/
def previewRequest (fm : List (String × String))
    (d : List (String × JsValue)) (className : String) : HttpPost :=
  ⟨"http://localhost:8083/b2b/preview", configJson fm d className⟩

/-- The request issued by registerMapping. -/
def registerRequest (fm : List (String × String))
    (d : List (String × JsValue)) (className : String) : HttpPost :=
  ⟨"http://localhost:8083/b2b/register", configJson fm d className⟩

/-- The request issued by generateB2BClass: the b2bName read back from
configJson goes into the URL and the body is the empty object literal. -/
def generateRequest (fm : List (String × String))
    (d : List (String × JsValue)) (className : String) : HttpPost :=
  let b2b : String :=
    match jsGet (configJson fm d className) "b2bName" with
    | .str s => s
    | _ => ""
  ⟨"http://localhost:8083/b2b/generate/" ++ b2b, .obj []⟩

/-! ### ApiSpecInput.tsx: validateJson and generateDTOs -/

/-- validateJson from ApiSpecInput.tsx, as the pair (value stored in the
isValid indicator, value returned): a blank string clears the indicator
and returns null; a parse success sets it true and returns the parsed
value; a parse failure sets it false and returns null. -/
def validateJson (jsonString : String) : Option Bool × JsValue :=
  if jsTrim jsonString = "" then (none, .null)
  else
    match jsonParse jsonString with
    | some parsed => (some true, parsed)
    | none => (some false, .null)

/-- A toast notification: title, description, variant. -/
structure Toast where
  title : String
  description : JsValue
  variant : String
deriving DecidableEq, Repr

/-- The failure toast of the generateDTOs catch block. -/
def genFailedToast : Toast :=
  ⟨"Generation Failed",
    .str "Failed to generate DTOs. Using local schema for mapping.",
    "destructive"⟩

/-- The toast shown when the fallback re-parse also fails. -/
def invalidSchemaToast : Toast :=
  ⟨"Invalid Schema", .str "Please provide a valid JSON schema.",
    "destructive"⟩

/-- The success toast: result.message when truthy, a fixed message
otherwise. -/
def dtosGeneratedToast (body : JsValue) : Toast :=
  ⟨"DTOs Generated",
    (if jsTruthy (jsGet body "message") then jsGet body "message"
     else .str "DTO classes generated successfully!"),
    "default"⟩

/-- The outcome of the fetch to the DTO-generation endpoint: the promise
rejects, or a response arrives with the given ok flag and parsed JSON
body. -/
inductive FetchOutcome where
  | throws
  | resp (ok : Bool) (body : JsValue)
deriving DecidableEq, Repr

/-- What one run of generateDTOs does: the toasts it shows in order, and
the argument pair of the onSchemaSubmit call when one happens. -/
structure GenResult where
  toasts : List Toast
  submitted : Option (JsValue × String)
deriving DecidableEq, Repr

/-- generateDTOs from ApiSpecInput.tsx.  The guard returns early unless
schema and className are non-empty and isValid is true.  JSON.parse runs
inside the try block: if it throws, the catch shows the failure toast and
the fallback re-parse of the same string throws again, adding the
Invalid Schema toast.  Otherwise the fetch outcome decides: an ok
response with a non-null body shows the success toast (reading
result.message); an ok response with a null body throws on that read and
lands in the catch; a non-ok response or a rejected fetch lands in the
catch directly.  Every path that parsed the schema calls onSchemaSubmit
with the locally parsed schema and the class name. -/
def generateDTOs (schema className : String) (isValid : Option Bool)
    (outcome : FetchOutcome) : GenResult :=
  if schema = "" ∨ className = "" ∨ isValid ≠ some true then ⟨[], none⟩
  else
    match jsonParse schema with
    | none => ⟨[genFailedToast, invalidSchemaToast], none⟩
    | some parsed =>
      match outcome with
      | .resp true body =>
        if body = .null then ⟨[genFailedToast], some (parsed, className)⟩
        else ⟨[dtosGeneratedToast body], some (parsed, className)⟩
      | .resp false _ => ⟨[genFailedToast], some (parsed, className)⟩
      | .throws => ⟨[genFailedToast], some (parsed, className)⟩

/-! ### Spec-side definitions for the path-extraction round trip -/

/-- Spec-side description (claim C1): the dot-notation paths of the
tree's leaves — the properties whose type is not object — each prefixed
by the names of its ancestors joined with dots, in traversal order. -/
def specLeafPaths : List SchemaProperty → String → List String
  | [], _ => []
  | p :: rest, pre =>
    let path := if pre = "" then p.name else pre ++ "." ++ p.name
    (match p.type with
     | .object => specLeafPaths p.properties path
     | _ => [path]) ++ specLeafPaths rest pre
termination_by props _ => sizeOf props
decreasing_by
  all_goals cases p
  all_goals simp
  all_goals omega

/-- The claim's stated hypothesis on the user-built tree: every property
has a non-empty name and every object-typed property has at least one
child. -/
def namesOk : List SchemaProperty → Bool
  | [] => true
  | p :: rest =>
    p.name != "" &&
      (match p.type with
       | .object => !p.properties.isEmpty && namesOk p.properties
       | _ => true) &&
      namesOk rest
termination_by props => sizeOf props
decreasing_by
  all_goals cases p
  all_goals simp
  all_goals omega

/-- No string occurs twice in the list. -/
def distinctStrings : List String → Bool
  | [] => true
  | s :: rest => !rest.contains s && distinctStrings rest

/-- The amendment's extra hypothesis, at every node: the name is not a
canonical array index, and the children of an object-typed property have
pairwise distinct names. -/
def nodesOk : List SchemaProperty → Bool
  | [] => true
  | p :: rest =>
    !isArrayIndexName p.name &&
      (match p.type with
       | .object =>
         distinctStrings (p.properties.map (fun q => q.name)) &&
           nodesOk p.properties
       | _ => true) &&
      nodesOk rest
termination_by props => sizeOf props
decreasing_by
  all_goals cases p
  all_goals simp
  all_goals omega

/-- The amendment's extra hypothesis on a tree: pairwise distinct sibling
names at the top level and nodesOk throughout. -/
def siblingsOk (props : List SchemaProperty) : Bool :=
  distinctStrings (props.map (fun p => p.name)) && nodesOk props

/-- The schema entry generateJsonSchema produces for one named property. -/
def entryOf (p : SchemaProperty) : JsValue :=
  match p.type with
  | .object =>
    .obj [("type", .str "object"),
      ("properties", .obj (genEntries p.properties []))]
  | t => .obj [("type", .str t.jsonName)]

theorem jsSpread_typeTag (x : JsValue) :
    jsSpread [("type", .str "object")]
      [("type", .str "object"), ("properties", x)] =
      [("type", .str "object"), ("properties", x)] := by
  simp [jsSpread, jsAssign]

theorem jsAssign_fresh {acc : List (String × JsValue)} {k : String}
    (v : JsValue) (h : ∀ kv ∈ acc, kv.1 ≠ k) :
    jsAssign acc k v = acc ++ [(k, v)] := by
  have hany : acc.any (fun kv => kv.1 = k) = false := by
    rw [List.any_eq_false]
    intro kv hm
    simpa using h kv hm
  simp [jsAssign, hany]

theorem distinctStrings_cons {s : String} {rest : List String}
    (h : distinctStrings (s :: rest) = true) :
    s ∉ rest ∧ distinctStrings rest = true := by
  simp only [distinctStrings, Bool.and_eq_true, Bool.not_eq_true'] at h
  refine ⟨?_, h.2⟩
  intro hmem
  have h1 := h.1
  simp at h1
  exact h1 hmem

theorem namesOk_cons {p : SchemaProperty} {rest : List SchemaProperty}
    (h : namesOk (p :: rest) = true) :
    p.name ≠ "" ∧
      (p.type = .object → p.properties ≠ [] ∧ namesOk p.properties = true) ∧
      namesOk rest = true := by
  rw [namesOk] at h
  simp only [Bool.and_eq_true, bne_iff_ne, ne_eq] at h
  refine ⟨h.1.1, ?_, h.2⟩
  intro hty
  have h2 := h.1.2
  rw [hty] at h2
  simp only [Bool.and_eq_true, Bool.not_eq_true'] at h2
  exact ⟨by simpa using h2.1, h2.2⟩

theorem nodesOk_cons {p : SchemaProperty} {rest : List SchemaProperty}
    (h : nodesOk (p :: rest) = true) :
    isArrayIndexName p.name = false ∧
      (p.type = .object →
        distinctStrings (p.properties.map (fun q => q.name)) = true ∧
          nodesOk p.properties = true) ∧
      nodesOk rest = true := by
  rw [nodesOk] at h
  simp only [Bool.and_eq_true, Bool.not_eq_true'] at h
  refine ⟨h.1.1, ?_, h.2⟩
  intro hty
  have h2 := h.1.2
  rw [hty] at h2
  simpa only [Bool.and_eq_true] using h2

theorem genEntries_fresh :
    ∀ (props : List SchemaProperty) (acc : List (String × JsValue)),
      namesOk props = true →
      distinctStrings (props.map (fun p => p.name)) = true →
      (∀ p ∈ props, ∀ kv ∈ acc, kv.1 ≠ p.name) →
      genEntries props acc = acc ++ props.map (fun p => (p.name, entryOf p)) := by
  intro props
  induction props with
  | nil => intro acc _ _ _; simp [genEntries]
  | cons p rest ih =>
    intro acc h1 h2 h3
    obtain ⟨hname, _, hrest⟩ := namesOk_cons h1
    simp only [List.map_cons] at h2
    obtain ⟨hcont, hdist⟩ := distinctStrings_cons h2
    have hstep : genEntries (p :: rest) acc =
        genEntries rest (jsAssign acc p.name (entryOf p)) := by
      rw [genEntries]
      simp only [if_neg hname]
      cases hp : p.type <;> simp [entryOf, hp, jsSpread_typeTag]
    rw [hstep, jsAssign_fresh (entryOf p) (fun kv hkv => h3 p (by simp) kv hkv)]
    rw [ih (acc ++ [(p.name, entryOf p)]) hrest hdist ?_]
    · simp
    · intro q hq kv hkv
      rcases List.mem_append.mp hkv with hkv | hkv
      · exact h3 q (by simp [hq]) kv hkv
      · have hkv1 : kv.1 = p.name := by
          simp at hkv
          simp [hkv]
        rw [hkv1]
        intro heq
        exact hcont (heq ▸ List.mem_map.mpr ⟨q, hq, rfl⟩)

theorem dedupKeysAux_id :
    ∀ (l : List (String × JsValue)) (seen : List String),
      distinctStrings (l.map (fun kv => kv.1)) = true →
      (∀ kv ∈ l, kv.1 ∉ seen) →
      dedupKeysAux seen l = l := by
  intro l
  induction l with
  | nil => intro seen _ _; simp [dedupKeysAux]
  | cons kv rest ih =>
    intro seen hdist hseen
    match kv with
    | (k, v) =>
      simp only [List.map_cons] at hdist
      obtain ⟨hcont, hdist2⟩ := distinctStrings_cons hdist
      have hk : k ∉ seen := by simpa using hseen (k, v) (by simp)
      rw [dedupKeysAux, if_neg hk]
      rw [ih (k :: seen) hdist2 ?_]
      intro kv2 hm
      simp only [List.mem_cons]
      intro hc
      rcases hc with hc | hc
      · exact hcont (hc ▸ List.mem_map.mpr ⟨kv2, hm, rfl⟩)
      · exact hseen kv2 (by simp [hm]) hc

theorem jsOrderedEntries_id (l : List (String × JsValue))
    (hdist : distinctStrings (l.map (fun kv => kv.1)) = true)
    (hidx : ∀ kv ∈ l, isArrayIndexName kv.1 = false) :
    jsOrderedEntries l = l := by
  have hded : dedupKeys l = l := dedupKeysAux_id l [] hdist (by simp)
  have hfil1 : l.filter (fun kv => isArrayIndexName kv.1) = [] := by
    rw [List.filter_eq_nil_iff]
    intro kv hm
    simp [hidx kv hm]
  have hfil2 : l.filter (fun kv => ! isArrayIndexName kv.1) = l := by
    rw [List.filter_eq_self]
    intro kv hm
    simp [hidx kv hm]
  simp [jsOrderedEntries, hded, hfil1, hfil2, sortByNum]

theorem nodesOk_mem_idx {props : List SchemaProperty} {p : SchemaProperty}
    (h : nodesOk props = true) (hm : p ∈ props) :
    isArrayIndexName p.name = false := by
  induction props with
  | nil => simp at hm
  | cons q rest ih =>
    obtain ⟨hq, _, hrest⟩ := nodesOk_cons h
    rcases List.mem_cons.mp hm with hm | hm
    · rw [hm]; exact hq
    · exact ih hrest hm

theorem extractFields_schemaObj (E : List (String × JsValue)) (pre : String) :
    extractFields (.obj [("type", .str "object"), ("properties", .obj E)]) pre =
      extractEntryList (jsOrderedEntries E) pre := by
  rw [extractFields]
  simp [jsGet, jsLookup, jsTruthy]

mutual

/-- The round trip: on a well-formed tree (non-empty names, children
under objects, distinct non-index sibling names) extractFields applied
to the generated schema returns exactly the spec-side leaf paths. -/
theorem extract_roundtrip (props : List SchemaProperty) (pre : String)
    (h1 : namesOk props = true) (h2 : siblingsOk props = true) :
    extractFields (generateJsonSchema props) pre = specLeafPaths props pre := by
  have hsib := h2
  simp only [siblingsOk, Bool.and_eq_true] at hsib
  obtain ⟨hdist, hnodes⟩ := hsib
  have hE : genEntries props [] = props.map (fun p => (p.name, entryOf p)) := by
    simpa using genEntries_fresh props [] h1 hdist (by simp)
  have hdist2 : distinctStrings
      ((props.map (fun p => (p.name, entryOf p))).map (fun kv => kv.1)) = true := by
    simpa [List.map_map, Function.comp] using hdist
  have hidx : ∀ kv ∈ props.map (fun p => (p.name, entryOf p)),
      isArrayIndexName kv.1 = false := by
    intro kv hm
    obtain ⟨p, hp, hkv⟩ := List.mem_map.mp hm
    rw [← hkv]
    exact nodesOk_mem_idx hnodes hp
  rw [show generateJsonSchema props =
    .obj [("type", .str "object"), ("properties", .obj (genEntries props []))]
    from rfl]
  rw [extractFields_schemaObj, hE,
    jsOrderedEntries_id _ hdist2 hidx]
  exact entryList_spec props pre h1 hnodes
termination_by (sizeOf props, 1)
decreasing_by
  exact Prod.Lex.right _ (by omega)

/-- One step of the walk per property, against the spec-side paths. -/
theorem entryList_spec (props : List SchemaProperty) (pre : String)
    (h1 : namesOk props = true) (h2 : nodesOk props = true) :
    extractEntryList (props.map (fun p => (p.name, entryOf p))) pre =
      specLeafPaths props pre := by
  match props with
  | [] => simp [extractEntryList, specLeafPaths]
  | p :: rest =>
    obtain ⟨hname, hobj, hrest⟩ := namesOk_cons h1
    obtain ⟨hidx, hobj2, hrest2⟩ := nodesOk_cons h2
    have ihrest := entryList_spec rest pre hrest hrest2
    cases hty : p.type
    case object =>
      have hch := hobj hty
      have hch2 := hobj2 hty
      have ihchild := extract_roundtrip p.properties
        (if pre = "" then p.name else pre ++ "." ++ p.name) hch.2
        (by simp [siblingsOk, hch2.1, hch2.2])
      rw [List.map_cons, extractEntryList, specLeafPaths]
      simp only [hty]
      have hcond : jsGet (entryOf p) "type" = JsValue.str "object" ∧
          jsTruthy (jsGet (entryOf p) "properties") = true := by
        simp [entryOf, hty, jsGet, jsLookup, jsTruthy]
      rw [if_pos hcond]
      have hgen : entryOf p = generateJsonSchema p.properties := by
        simp [entryOf, hty, generateJsonSchema]
      rw [hgen, ihchild, ihrest]
    all_goals (
      rw [List.map_cons, extractEntryList, specLeafPaths]
      simp only [hty]
      have hcond : ¬ (jsGet (entryOf p) "type" = JsValue.str "object" ∧
          jsTruthy (jsGet (entryOf p) "properties") = true) := by
        simp [entryOf, hty, jsGet, jsLookup, PropType.jsonName]
      rw [if_neg hcond, ihrest])
termination_by (sizeOf props, 0)
decreasing_by
  · exact Prod.Lex.left _ _ (by simp <;> omega)
  · refine Prod.Lex.left _ _ ?_
    cases p
    simp <;> omega

end

/-! ### State-machine lemmas for the mapping card -/

/-- Interaction sequences the mapping card can actually produce for the
default-value flow: a default value is only ever entered for a field that
is not currently mapped to a schema path (the default-value input is
rendered only for fields in default mode). -/
def defaultSafe : MapState → List MapOp → Bool
  | _, [] => true
  | s, .fieldMap b a :: rest => defaultSafe (handleFieldMapping s b a) rest
  | s, .defaultVal b v :: rest =>
    s.fieldMapping.all (fun kv => kv.1 != b) &&
      defaultSafe (handleDefaultValue s b v) rest
  | s, .clear b :: rest => defaultSafe (clearMapping s b) rest

theorem mem_assocSet {l : List (String × String)} {k v : String}
    {kv : String × String} (h : kv ∈ assocSet l k v) :
    kv.1 = k ∨ kv ∈ l := by
  by_cases hc : l.any (fun kv => kv.1 = k)
  · rw [assocSet, if_pos hc] at h
    obtain ⟨kv2, hm, hkv⟩ := List.mem_map.mp h
    by_cases hk : kv2.1 = k
    · rw [if_pos hk] at hkv
      left
      rw [← hkv]
    · rw [if_neg hk] at hkv
      right
      rw [← hkv]
      exact hm
  · rw [assocSet, if_neg hc] at h
    rcases List.mem_append.mp h with h | h
    · exact Or.inr h
    · left
      simp at h
      simp [h]

theorem mem_assocDelete {l : List (String × String)} {k : String}
    {kv : String × String} :
    kv ∈ assocDelete l k ↔ kv ∈ l ∧ kv.1 ≠ k := by
  simp [assocDelete, List.mem_filter]

/-- keysDisjoint unfolded to membership form. -/
theorem keysDisjoint_iff {s : MapState} :
    keysDisjoint s = true ↔
      ∀ kv ∈ s.fieldMapping, ∀ kv2 ∈ s.defaults, kv2.1 ≠ kv.1 := by
  simp [keysDisjoint, List.all_eq_true]

theorem keysDisjoint_applyOp {s : MapState} {op : MapOp}
    (h : keysDisjoint s = true)
    (hsafe : (match op with
      | .defaultVal b _ => s.fieldMapping.all (fun kv => kv.1 != b)
      | _ => true) = true) :
    keysDisjoint (applyOp s op) = true := by
  rw [keysDisjoint_iff] at h
  rw [keysDisjoint_iff]
  match op with
  | .fieldMap b a =>
    by_cases hu : a = "USE_DEFAULT"
    · simp only [applyOp, handleFieldMapping, if_pos hu]
      intro kv hm kv2 hm2
      exact h kv (mem_assocDelete.mp hm).1 kv2 hm2
    · simp only [applyOp, handleFieldMapping, if_neg hu]
      intro kv hm kv2 hm2
      obtain ⟨hm2a, hm2b⟩ := mem_assocDelete.mp hm2
      rcases mem_assocSet hm with hk | hk
      · rw [hk]
        exact hm2b
      · exact h kv hk kv2 hm2a
  | .defaultVal b v =>
    have hb : s.fieldMapping.all (fun kv => kv.1 != b) = true := hsafe
    rw [List.all_eq_true] at hb
    simp only [applyOp, handleDefaultValue]
    intro kv hm kv2 hm2
    rcases mem_assocSet hm2 with hk | hk
    · rw [hk]
      intro he
      exact absurd he.symm (by simpa using hb kv hm)
    · exact h kv hm kv2 hk
  | .clear b =>
    simp only [applyOp, clearMapping]
    intro kv hm kv2 hm2
    exact h kv (mem_assocDelete.mp hm).1 kv2 (mem_assocDelete.mp hm2).1

theorem keysDisjoint_applyOps :
    ∀ (ops : List MapOp) (s : MapState), keysDisjoint s = true →
      defaultSafe s ops = true → keysDisjoint (applyOps s ops) = true := by
  intro ops
  induction ops with
  | nil => intro s h _; simpa [applyOps] using h
  | cons op rest ih =>
    intro s h hsafe
    have hstep : applyOps s (op :: rest) = applyOps (applyOp s op) rest := by
      simp [applyOps]
    rw [hstep]
    match op with
    | .fieldMap b a =>
      rw [defaultSafe] at hsafe
      exact ih _ (keysDisjoint_applyOp h rfl) hsafe
    | .defaultVal b v =>
      rw [defaultSafe, Bool.and_eq_true] at hsafe
      exact ih _ (keysDisjoint_applyOp h hsafe.1) hsafe.2
    | .clear b =>
      rw [defaultSafe] at hsafe
      exact ih _ (keysDisjoint_applyOp h rfl) hsafe

/-- Keys present in either record of a state. -/
def stateKeys (s : MapState) : List String :=
  s.fieldMapping.map (fun kv => kv.1) ++ s.defaults.map (fun kv => kv.1)

theorem keys_applyOp_subset {s : MapState} {op : MapOp} {k : String}
    (h : k ∈ stateKeys (applyOp s op)) :
    k ∈ stateKeys s ∨ k = op.baseField := by
  match op with
  | .fieldMap b a =>
    by_cases hu : a = "USE_DEFAULT" <;>
      simp only [applyOp, handleFieldMapping, if_pos, if_neg, hu, if_true,
        if_false, stateKeys, List.mem_append, List.mem_map] at h ⊢
    · rcases h with ⟨kv, hm, hk⟩ | ⟨kv, hm, hk⟩
      · exact Or.inl (Or.inl ⟨kv, (mem_assocDelete.mp hm).1, hk⟩)
      · exact Or.inl (Or.inr ⟨kv, hm, hk⟩)
    · rcases h with ⟨kv, hm, hk⟩ | ⟨kv, hm, hk⟩
      · rcases mem_assocSet hm with hk2 | hk2
        · exact Or.inr (by rw [← hk, hk2]; rfl)
        · exact Or.inl (Or.inl ⟨kv, hk2, hk⟩)
      · exact Or.inl (Or.inr ⟨kv, (mem_assocDelete.mp hm).1, hk⟩)
  | .defaultVal b v =>
    simp only [applyOp, handleDefaultValue, stateKeys, List.mem_append,
      List.mem_map] at h ⊢
    rcases h with ⟨kv, hm, hk⟩ | ⟨kv, hm, hk⟩
    · exact Or.inl (Or.inl ⟨kv, hm, hk⟩)
    · rcases mem_assocSet hm with hk2 | hk2
      · exact Or.inr (by rw [← hk, hk2]; rfl)
      · exact Or.inl (Or.inr ⟨kv, hk2, hk⟩)
  | .clear b =>
    simp only [applyOp, clearMapping, stateKeys, List.mem_append,
      List.mem_map] at h ⊢
    rcases h with ⟨kv, hm, hk⟩ | ⟨kv, hm, hk⟩
    · exact Or.inl (Or.inl ⟨kv, (mem_assocDelete.mp hm).1, hk⟩)
    · exact Or.inl (Or.inr ⟨kv, (mem_assocDelete.mp hm).1, hk⟩)

theorem keys_applyOps_subset :
    ∀ (ops : List MapOp) (s : MapState),
      (∀ op ∈ ops, op.baseField ∈ BASE_REQUEST_FIELDS.map (fun f => f.name)) →
      (∀ k ∈ stateKeys s, k ∈ BASE_REQUEST_FIELDS.map (fun f => f.name)) →
      ∀ k ∈ stateKeys (applyOps s ops),
        k ∈ BASE_REQUEST_FIELDS.map (fun f => f.name) := by
  intro ops
  induction ops with
  | nil => intro s _ hs k hk; exact hs k (by simpa [applyOps] using hk)
  | cons op rest ih =>
    intro s hops hs k hk
    have hstep : applyOps s (op :: rest) = applyOps (applyOp s op) rest := by
      simp [applyOps]
    rw [hstep] at hk
    refine ih (applyOp s op) (fun o ho => hops o (by simp [ho])) ?_ k hk
    intro k2 hk2
    rcases keys_applyOp_subset hk2 with hk2 | hk2
    · exact hs k2 hk2
    · rw [hk2]
      exact hops op (by simp)

/-! ### Shape of generated schema entries (claim C8) -/

/-- The primitive type names a generated leaf entry may carry. -/
def primitiveName (t : String) : Bool :=
  t == "string" || t == "number" || t == "integer" || t == "short" ||
    t == "boolean"

/-- A well-shaped schema entry: either type object together with a
properties object whose entries are themselves well-shaped, or a
primitive type with no properties key at all. -/
def goodEntry (e : JsValue) : Bool :=
  match e with
  | .obj fields =>
    (match jsLookup fields "type", h : jsLookup fields "properties" with
     | some (.str "object"), some (.obj pfs) =>
       pfs.attach.all (fun kv => goodEntry kv.1.2)
     | some (.str t), none => primitiveName t
     | _, _ => false)
  | _ => false
termination_by sizeOf e
decreasing_by
  have hm : kv.1 ∈ pfs := kv.2
  have h1 : sizeOf kv.1.2 < sizeOf pfs := sizeOf_snd_lt_of_mem hm
  have h2 := List.sizeOf_lt_of_mem (jsLookup_mem h)
  simp at h2 ⊢
  omega

theorem goodEntry_leaf (t : PropType) (h : t ≠ .object) :
    goodEntry (.obj [("type", .str t.jsonName)]) = true := by
  cases t <;> simp [goodEntry, jsLookup, primitiveName, PropType.jsonName] <;>
    exact absurd rfl h

theorem goodEntry_objEntry (E : List (String × JsValue))
    (hE : E.all (fun kv => goodEntry kv.2) = true) :
    goodEntry (.obj [("type", .str "object"), ("properties", .obj E)]) =
      true := by
  rw [goodEntry]
  show E.attach.all (fun kv => goodEntry kv.1.2) = true
  rw [List.all_eq_true] at hE ⊢
  intro kv _
  exact hE kv.1 kv.2

theorem jsAssign_all {acc : List (String × JsValue)} {k : String}
    {v : JsValue} {p : String × JsValue → Bool} (h : acc.all p = true)
    (hv : p (k, v) = true) : (jsAssign acc k v).all p = true := by
  rw [List.all_eq_true] at h ⊢
  intro kv hm
  by_cases hc : acc.any (fun kv => kv.1 = k)
  · rw [jsAssign, if_pos hc] at hm
    obtain ⟨kv2, hm2, hkv⟩ := List.mem_map.mp hm
    by_cases hk : kv2.1 = k
    · rw [if_pos hk] at hkv
      rw [← hkv]
      exact hv
    · rw [if_neg hk] at hkv
      rw [← hkv]
      exact h kv2 hm2
  · rw [jsAssign, if_neg hc] at hm
    rcases List.mem_append.mp hm with hm | hm
    · exact h kv hm
    · simp at hm
      rw [hm]
      exact hv

theorem genEntries_good (props : List SchemaProperty)
    (acc : List (String × JsValue))
    (h : acc.all (fun kv => goodEntry kv.2) = true) :
    (genEntries props acc).all (fun kv => goodEntry kv.2) = true := by
  match props with
  | [] => simpa [genEntries] using h
  | p :: rest =>
    rw [genEntries]
    by_cases hn : p.name = ""
    · rw [if_pos hn]
      exact genEntries_good rest acc h
    · rw [if_neg hn]
      cases hty : p.type
      all_goals first
        | (simp only [jsSpread_typeTag]
           exact genEntries_good rest _ (jsAssign_all h
             (goodEntry_objEntry _ (genEntries_good p.properties [] rfl))))
        | (exact genEntries_good rest _ (jsAssign_all h
            (goodEntry_leaf _ (by intro hc; exact PropType.noConfusion hc))))
termination_by sizeOf props
decreasing_by
  all_goals cases p
  all_goals simp <;> omega

/-! ### Blank strings never parse as JSON -/

theorem trim_empty_all_ws {s : String} (h : jsTrim s = "") :
    ∀ c ∈ s.data, jsWsChar c = true := by
  have hl : jsTrimList s.data = [] := by
    have := congrArg String.data h
    simpa [jsTrim] using this
  simp only [jsTrimList, List.reverse_eq_nil_iff] at hl
  rw [List.dropWhile_eq_nil_iff] at hl
  intro c hc
  rcases List.mem_append.mp
      ((List.takeWhile_append_dropWhile
        (p := fun c => jsWsChar c) (l := s.data)) ▸ hc) with hm | hm
  · exact List.mem_takeWhile_imp hm
  · exact hl c (List.mem_reverse.mpr hm)

theorem ws_not_jsonWs {c : Char} (h1 : jsWsChar c = true)
    (h2 : jsonWs c = false) :
    c = '\x0b' ∨ c = '\x0c' ∨ c = '\xa0' ∨ c = '\u2028' ∨ c = '\u2029' ∨
      c = '\ufeff' := by
  simp only [jsWsChar, Bool.or_eq_true, decide_eq_true_eq] at h1
  simp only [jsonWs, Bool.or_eq_true, decide_eq_true_eq, not_or,
    Bool.or_eq_false_iff, decide_eq_false_iff_not] at h2
  tauto

theorem skipWs_of_all_ws :
    ∀ l : List Char, (∀ c ∈ l, jsWsChar c = true) →
      skipWs l = [] ∨ ∃ c rest, skipWs l = c :: rest ∧
        jsWsChar c = true ∧ jsonWs c = false := by
  intro l
  induction l with
  | nil => intro _; left; rfl
  | cons c t ih =>
    intro h
    by_cases hc : jsonWs c = true
    · have : skipWs (c :: t) = skipWs t := by
        rw [skipWs, if_pos hc]
      rw [this]
      exact ih (fun d hd => h d (by simp [hd]))
    · right
      refine ⟨c, t, ?_, h c (by simp), by simpa using hc⟩
      rw [skipWs, if_neg hc]

theorem parseJsonVal_exotic (fuel : ℕ) (c : Char) (rest : List Char)
    (h1 : jsWsChar c = true) (h2 : jsonWs c = false) :
    parseJsonVal fuel (c :: rest) = none := by
  cases fuel with
  | zero => rfl
  | succ n =>
    have hskip : skipWs (c :: rest) = c :: rest := by
      rw [skipWs, if_neg (by simp [h2])]
    rcases ws_not_jsonWs h1 h2 with h | h | h | h | h | h <;> subst h <;>
      simp [parseJsonVal, hskip, parseJsonNumber, spanDigits]

theorem blank_no_parse {s : String} (h : jsTrim s = "") :
    jsonParse s = none := by
  have hall := trim_empty_all_ws h
  have hsucc : 2 * s.length + 2 = Nat.succ (2 * s.length + 1) := rfl
  rcases skipWs_of_all_ws s.data hall with hnil | ⟨c, rest, heq, hc1, hc2⟩
  · rw [jsonParse, hsucc, parseJsonVal, hnil]
    simp [parseJsonNumber, spanDigits]
  · have hskip : skipWs (c :: rest) = c :: rest := by
      rw [skipWs, if_neg (by simp [hc2])]
    have hstep : parseJsonVal (Nat.succ (2 * s.length + 1)) s.data =
        parseJsonVal (Nat.succ (2 * s.length + 1)) (c :: rest) := by
      conv_lhs => rw [parseJsonVal]
      conv_rhs => rw [parseJsonVal]
      rw [heq, hskip]
    rw [jsonParse, hsucc, hstep,
      parseJsonVal_exotic _ c rest hc1 hc2]

/-! ### Lookup lemmas for the configuration payload (claim C9) -/

theorem jsLookup_eq_none_iff {l : List (String × JsValue)} {k : String} :
    jsLookup l k = none ↔ ∀ kv ∈ l, kv.1 ≠ k := by
  induction l with
  | nil => simp [jsLookup]
  | cons kv2 rest ih =>
    match kv2 with
    | (k2, v2) =>
      by_cases hk : k2 = k
      · simp [jsLookup, hk]
      · simp only [jsLookup, if_neg hk, ih, List.mem_cons]
        constructor
        · intro h kv hm
          rcases hm with hm | hm
          · rw [hm]; exact hk
          · exact h kv hm
        · intro h kv hm
          exact h kv (Or.inr hm)

theorem unique_key_mem {l : List (String × JsValue)} {k : String}
    {v w : JsValue}
    (hd : distinctStrings (l.map (fun kv => kv.1)) = true)
    (h1 : (k, v) ∈ l) (h2 : (k, w) ∈ l) : v = w := by
  induction l with
  | nil => simp at h1
  | cons kv2 rest ih =>
    simp only [List.map_cons] at hd
    obtain ⟨hcont, hd2⟩ := distinctStrings_cons hd
    rcases List.mem_cons.mp h1 with h1 | h1 <;>
      rcases List.mem_cons.mp h2 with h2 | h2
    · exact congrArg Prod.snd (h1.trans h2.symm)
    · exfalso
      apply hcont
      rw [← h1]
      exact List.mem_map.mpr ⟨(k, w), h2, rfl⟩
    · exfalso
      apply hcont
      rw [← h2]
      exact List.mem_map.mpr ⟨(k, v), h1, rfl⟩
    · exact ih hd2 h1 h2

theorem mem_insertByNum_iff {x y : String × JsValue}
    {l : List (String × JsValue)} :
    x ∈ insertByNum y l ↔ x = y ∨ x ∈ l := by
  constructor
  · exact mem_insertByNum
  · intro h
    induction l with
    | nil => simpa [insertByNum] using h
    | cons z zs ih =>
      rw [insertByNum]
      by_cases hc : digitsToNat y.1 ≤ digitsToNat z.1
      · rw [if_pos hc]
        rcases h with h | h
        · simp [h]
        · simp [h]
      · rw [if_neg hc]
        rcases h with h | h
        · simp [ih (Or.inl h)]
        · rcases List.mem_cons.mp h with h2 | h2
          · simp [h2]
          · simp [ih (Or.inr h2)]

theorem mem_sortByNum_iff {x : String × JsValue}
    {l : List (String × JsValue)} : x ∈ sortByNum l ↔ x ∈ l := by
  induction l with
  | nil => simp [sortByNum]
  | cons z zs ih =>
    rw [sortByNum, mem_insertByNum_iff, ih, List.mem_cons]

theorem mem_jsOrderedEntries_iff {x : String × JsValue}
    {l : List (String × JsValue)}
    (hd : distinctStrings (l.map (fun kv => kv.1)) = true) :
    x ∈ jsOrderedEntries l ↔ x ∈ l := by
  have hded : dedupKeys l = l := dedupKeysAux_id l [] hd (by simp)
  simp only [jsOrderedEntries, hded, List.mem_append, mem_sortByNum_iff,
    List.mem_filter]
  constructor
  · intro h
    rcases h with ⟨h, _⟩ | ⟨h, _⟩ <;> exact h
  · intro h
    by_cases hi : isArrayIndexName x.1
    · exact Or.inl ⟨h, by simp [hi]⟩
    · exact Or.inr ⟨h, by simp [hi]⟩

theorem jsLookup_jsOrderedEntries (l : List (String × JsValue))
    (hd : distinctStrings (l.map (fun kv => kv.1)) = true) (k : String) :
    jsLookup (jsOrderedEntries l) k = jsLookup l k := by
  rcases hv : jsLookup l k with _ | v
  · rw [jsLookup_eq_none_iff] at hv ⊢
    intro kv hm
    exact hv kv ((mem_jsOrderedEntries_iff hd).mp hm)
  · have hmem : (k, v) ∈ l := jsLookup_mem hv
    have hmem2 : (k, v) ∈ jsOrderedEntries l :=
      (mem_jsOrderedEntries_iff hd).mpr hmem
    rcases hw : jsLookup (jsOrderedEntries l) k with _ | w
    · rw [jsLookup_eq_none_iff] at hw
      exact absurd rfl (hw (k, v) hmem2)
    · have hmw : (k, w) ∈ l :=
        (mem_jsOrderedEntries_iff hd).mp (jsLookup_mem hw)
      rw [unique_key_mem hd hmw hmem]

theorem jsLookup_map_value (f : JsValue → JsValue)
    (l : List (String × JsValue)) (k : String) :
    jsLookup (l.map (fun kv => (kv.1, f kv.2))) k =
      (jsLookup l k).map f := by
  induction l with
  | nil => simp [jsLookup]
  | cons kv rest ih =>
    by_cases hk : kv.1 = k
    · simp [jsLookup, hk]
    · simp [jsLookup, hk, ih]

theorem jsLookup_filter_keep {p : String × JsValue → Bool}
    {l : List (String × JsValue)} {k : String}
    (hp : ∀ v, p (k, v) = true) :
    jsLookup (l.filter p) k = jsLookup l k := by
  induction l with
  | nil => simp [jsLookup]
  | cons kv rest ih =>
    match kv with
    | (k2, v2) =>
      by_cases hk : k2 = k
      · rw [hk]
        rw [List.filter_cons, if_pos (hp v2)]
        simp [jsLookup]
      · rw [List.filter_cons]
        by_cases hpv : p (k2, v2)
        · rw [if_pos hpv]
          simp only [jsLookup, if_neg hk]
          exact ih
        · simp at hpv
          rw [if_neg (by simp [hpv])]
          simp only [jsLookup, if_neg hk]
          exact ih

theorem lookup_replace_self {k : String} {v : JsValue} :
    ∀ l : List (String × JsValue), l.any (fun kv => kv.1 = k) = true →
      jsLookup (l.map (fun kv => if kv.1 = k then (k, v) else kv)) k =
        some v := by
  intro l
  induction l with
  | nil => simp
  | cons kv rest ih =>
    obtain ⟨k0, v0⟩ := kv
    intro hany
    rw [List.map_cons]
    by_cases hk : k0 = k
    · rw [show (if (k0, v0).1 = k then (k, v) else (k0, v0)) = (k, v) from
        if_pos hk]
      rw [jsLookup, if_pos rfl]
    · rw [show (if (k0, v0).1 = k then (k, v) else (k0, v0)) = (k0, v0) from
        if_neg hk]
      rw [jsLookup, if_neg hk]
      apply ih
      simp only [List.any_cons, Bool.or_eq_true] at hany
      rcases hany with h | h
      · exact absurd (by simpa using h) hk
      · exact h

theorem lookup_replace_other {k k2 : String} {v : JsValue} (h : k2 ≠ k) :
    ∀ l : List (String × JsValue),
      jsLookup (l.map (fun kv => if kv.1 = k then (k, v) else kv)) k2 =
        jsLookup l k2 := by
  intro l
  induction l with
  | nil => simp
  | cons kv rest ih =>
    obtain ⟨k0, v0⟩ := kv
    rw [List.map_cons]
    by_cases hk : k0 = k
    · rw [show (if (k0, v0).1 = k then (k, v) else (k0, v0)) = (k, v) from
        if_pos hk]
      rw [jsLookup, jsLookup,
        if_neg (show ¬ k = k2 from fun hcc => h hcc.symm),
        if_neg (show ¬ k0 = k2 by rw [hk]; exact fun hcc => h hcc.symm)]
      exact ih
    · rw [show (if (k0, v0).1 = k then (k, v) else (k0, v0)) = (k0, v0) from
        if_neg hk]
      rw [jsLookup, jsLookup]
      by_cases hk2 : k0 = k2
      · rw [if_pos hk2, if_pos hk2]
      · rw [if_neg hk2, if_neg hk2]
        exact ih

theorem lookup_append_single_self {k : String} {v : JsValue} :
    ∀ l : List (String × JsValue), l.any (fun kv => kv.1 = k) = false →
      jsLookup (l ++ [(k, v)]) k = some v := by
  intro l
  induction l with
  | nil => simp [jsLookup]
  | cons kv rest ih =>
    obtain ⟨k0, v0⟩ := kv
    intro hany
    simp only [List.any_cons, Bool.or_eq_false_iff] at hany
    have hk : ¬ k0 = k := by simpa using hany.1
    rw [List.cons_append, jsLookup, if_neg hk]
    exact ih hany.2

theorem lookup_append_single_other {k k2 : String} {v : JsValue}
    (h : k2 ≠ k) :
    ∀ l : List (String × JsValue),
      jsLookup (l ++ [(k, v)]) k2 = jsLookup l k2 := by
  intro l
  induction l with
  | nil =>
    simp only [List.nil_append, jsLookup]
    rw [if_neg (show ¬ k = k2 from fun hcc => h hcc.symm)]
  | cons kv rest ih =>
    obtain ⟨k0, v0⟩ := kv
    rw [List.cons_append, jsLookup, jsLookup]
    by_cases hk2 : k0 = k2
    · rw [if_pos hk2, if_pos hk2]
    · rw [if_neg hk2, if_neg hk2]
      exact ih

theorem jsSpread_single (l : List (String × JsValue)) (k : String)
    (v : JsValue) : jsSpread l [(k, v)] = jsAssign l k v := by
  simp [jsSpread]

theorem jsSpread_nil (l : List (String × JsValue)) : jsSpread l [] = l :=
  rfl

theorem jsLookup_jsAssign_self (l : List (String × JsValue)) (k : String)
    (v : JsValue) : jsLookup (jsAssign l k v) k = some v := by
  by_cases hc : l.any (fun kv => kv.1 = k)
  · rw [jsAssign, if_pos hc]
    exact lookup_replace_self l hc
  · rw [jsAssign, if_neg hc]
    refine lookup_append_single_self l ?_
    simp only [Bool.not_eq_true, List.any_eq_false] at hc
    rw [List.any_eq_false]
    intro kv hm
    simpa using hc kv hm

theorem jsLookup_jsAssign_other (l : List (String × JsValue))
    (k k2 : String) (v : JsValue) (h : k2 ≠ k) :
    jsLookup (jsAssign l k v) k2 = jsLookup l k2 := by
  by_cases hc : l.any (fun kv => kv.1 = k)
  · rw [jsAssign, if_pos hc]
    exact lookup_replace_other h l
  · rw [jsAssign, if_neg hc]
    exact lookup_append_single_other h l

/-! ### Number coercion facts for parseValue (claim C10) -/

theorem dropWhile_append_single {c : Char} (h : jsWsChar c = false) :
    ∀ l : List Char, ∃ r,
      (l ++ [c]).dropWhile (fun c => jsWsChar c) = r ++ [c] := by
  intro l
  induction l with
  | nil =>
    refine ⟨[], ?_⟩
    simp [List.dropWhile, h]
  | cons a l ih =>
    by_cases ha : jsWsChar a = true
    · obtain ⟨r, hr⟩ := ih
      refine ⟨r, ?_⟩
      simp only [List.cons_append, List.dropWhile, ha]
      exact hr
    · refine ⟨a :: l, ?_⟩
      simp only [List.cons_append, List.dropWhile]
      simp [ha]

theorem jsTrimList_head {c : Char} (h : jsWsChar c = false)
    (rest : List Char) : ∃ r2, jsTrimList (c :: rest) = c :: r2 := by
  have h1 : (c :: rest).dropWhile (fun c => jsWsChar c) = c :: rest := by
    simp [List.dropWhile, h]
  obtain ⟨r, hr⟩ := dropWhile_append_single h rest.reverse
  refine ⟨r.reverse, ?_⟩
  rw [jsTrimList, h1, List.reverse_cons, hr]
  simp

theorem jsNumberDecimal_head_open {t : List Char}
    (hc : t.head? = some '[' ∨ t.head? = some '\x7b') :
    jsNumberOf.jsNumberDecimal t = none := by
  match t with
  | [] => simp at hc
  | c :: r2 =>
    have hinf : "Infinity".data = 'I' :: "nfinity".data := rfl
    rcases hc with hc | hc <;>
      simp only [List.head?_cons, Option.some.injEq] at hc <;> subst hc <;>
      simp [jsNumberOf.jsNumberDecimal, hinf, parseDecPrefix, spanDigits]

theorem jsNumberOf_head_open {s : String} {rest : List Char}
    (hc : s.data = '[' :: rest ∨ s.data = '\x7b' :: rest) :
    jsNumberOf s = none := by
  rcases hc with hc | hc
  · obtain ⟨r2, ht⟩ := jsTrimList_head (c := '[') (by decide) rest
    rw [jsNumberOf, hc, ht]
    exact jsNumberDecimal_head_open (Or.inl rfl)
  · obtain ⟨r2, ht⟩ := jsTrimList_head (c := '\x7b') (by decide) rest
    rw [jsNumberOf, hc, ht]
    exact jsNumberDecimal_head_open (Or.inr rfl)

theorem jsStartsWith_single {s pat : String} {c : Char}
    (hp : pat.data = [c]) (h : jsStartsWith s pat = true) :
    ∃ cs, s.data = c :: cs := by
  rw [jsStartsWith, hp] at h
  match hs : s.data with
  | [] => rw [hs] at h; simp [headMatches] at h
  | d :: ds =>
    rw [hs] at h
    simp only [headMatches, Bool.and_eq_true, decide_eq_true_eq] at h
    exact ⟨ds, by rw [h.1]⟩

theorem ne_of_head {s : String} {c : Char} {cs : List Char} {u : String}
    (hs : s.data = c :: cs) (hu : u.data.head? ≠ some c) : s ≠ u := by
  intro he
  rw [he] at hs
  rw [hs] at hu
  simp at hu

/-! ### Claims -/

/-- C7: validateJson clears the indicator and returns null on a blank
string, sets it true and returns the parsed value exactly when the
string parses as JSON, and sets it false and returns null when a
non-blank string fails to parse. -/
theorem C7_validateJson_indicator (s : String) :
    (jsTrim s = "" → validateJson s = (none, .null)) ∧
    (∀ v, jsonParse s = some v → validateJson s = (some true, v)) ∧
    (jsTrim s ≠ "" → jsonParse s = none →
      validateJson s = (some false, .null)) ∧
    ((validateJson s).1 = some true ↔ ∃ v, jsonParse s = some v) := by
  refine ⟨?_, ?_, ?_, ?_⟩
  · intro h
    simp [validateJson, h]
  · intro v hv
    have hb : jsTrim s ≠ "" := by
      intro h
      rw [blank_no_parse h] at hv
      exact Option.noConfusion hv
    simp [validateJson, hb, hv]
  · intro hb hn
    simp [validateJson, hb, hn]
  · constructor
    · intro h
      by_cases hb : jsTrim s = ""
      · simp [validateJson, hb] at h
      · rcases hv : jsonParse s with _ | v
        · simp [validateJson, hb, hv] at h
        · exact ⟨v, rfl⟩
    · intro ⟨v, hv⟩
      have hb : jsTrim s ≠ "" := by
        intro h
        rw [blank_no_parse h] at hv
        exact Option.noConfusion hv
      simp [validateJson, hb, hv]

/-- C7 witness: a blank input, a valid input and an invalid input. -/
theorem C7_validateJson_indicator_witness :
    validateJson " " = (none, .null) ∧
    validateJson "\x7b\"a\":1\x7d" =
      (some true, .obj [("a", .num (.finite 1 0))]) ∧
    validateJson "nope" = (some false, .null) :=
  ⟨(C7_validateJson_indicator " ").1 (by decide),
   (C7_validateJson_indicator "\x7b\"a\":1\x7d").2.1 _ (by decide),
   (C7_validateJson_indicator "nope").2.2.1 (by decide) (by decide)⟩

/-- C2, counterexample: the claim as stated is false.  From the empty
mapping, handleFieldMapping maps userType to a schema path and
handleDefaultValue then records a default for userType without removing
the mapping, so userType ends up in both key sets. -/
theorem C2_counterexample :
    keysDisjoint (applyOps emptyMapState
      [.fieldMap "userType" "user.kind",
       .defaultVal "userType" "admin"]) = false := by
  decide

/-- C2 (amended): for every sequence of handleFieldMapping,
handleDefaultValue and clearMapping interactions starting from the empty
mapping in which handleDefaultValue is only invoked on a field not
currently present in fieldMapping (as the rendered UI arranges), the key
sets of fieldMapping and defaults stay disjoint. -/
theorem C2_mapping_and_defaults_disjoint (ops : List MapOp)
    (h : defaultSafe emptyMapState ops = true) :
    keysDisjoint (applyOps emptyMapState ops) = true :=
  keysDisjoint_applyOps ops emptyMapState rfl h

/-- C2 witness: a concrete safe interaction sequence. -/
theorem C2_mapping_and_defaults_disjoint_witness :
    defaultSafe emptyMapState
      [.fieldMap "userType" "user.kind", .clear "userType",
       .defaultVal "userType" "admin"] = true ∧
    keysDisjoint (applyOps emptyMapState
      [.fieldMap "userType" "user.kind", .clear "userType",
       .defaultVal "userType" "admin"]) = true :=
  ⟨by decide,
   C2_mapping_and_defaults_disjoint
     [.fieldMap "userType" "user.kind", .clear "userType",
      .defaultVal "userType" "admin"] (by decide)⟩

/-- C3, counterexample: the claim as stated is false.  On a successful
request the schema handed to onSchemaSubmit is the locally parsed
schema, not the server-generated one: with server body
obj [(schema, str server)], the submitted schema is the local parse of
the entered text and differs from the server body. -/
theorem C3_counterexample :
    (generateDTOs "\x7b\"a\":1\x7d" "Cls" (some true)
        (.resp true (.obj [("schema", .str "server")]))).submitted =
      some (.obj [("a", .num (.finite 1 0))], "Cls") ∧
    JsValue.obj [("a", .num (.finite 1 0))] ≠
      .obj [("schema", .str "server")] := by
  decide

/-- C3 (amended): the schema handed to the mapping stage is the locally
parsed schema on the success path just as on the fallback path — the
server response only feeds the toast — so the schema passed onward is
the same on both paths. -/
theorem C3_submitted_schema_is_local (schema className : String)
    (body : JsValue) (v : JsValue) (hs : schema ≠ "") (hc : className ≠ "")
    (hv : jsonParse schema = some v) :
    (generateDTOs schema className (some true)
        (.resp true body)).submitted = some (v, className) ∧
    (generateDTOs schema className (some true)
        (.resp false body)).submitted = some (v, className) ∧
    (generateDTOs schema className (some true) .throws).submitted =
      some (v, className) := by
  by_cases hb : body = .null <;>
    simp [generateDTOs, hs, hc, hv, hb]

/-- C3 witness: a concrete run on each path. -/
theorem C3_submitted_schema_is_local_witness :
    (generateDTOs "\x7b\x7d" "C" (some true)
        (.resp true (.str "srv"))).submitted = some (.obj [], "C") :=
  (C3_submitted_schema_is_local "\x7b\x7d" "C" (.str "srv") (.obj [])
    (by decide) (by decide) (by decide)).1

/-- C4: when the fetch rejects or the response is not ok, generateDTOs
shows the failure toast and, when the schema text still parses, calls
onSchemaSubmit with the locally parsed schema and the class name; when
the text does not parse, the Invalid Schema toast follows and
onSchemaSubmit is not called. -/
theorem C4_failure_fallback (schema className : String)
    (outcome : FetchOutcome) (hs : schema ≠ "") (hc : className ≠ "")
    (hfail : outcome = .throws ∨ ∃ b, outcome = .resp false b) :
    (∀ v, jsonParse schema = some v →
      generateDTOs schema className (some true) outcome =
        ⟨[genFailedToast], some (v, className)⟩) ∧
    (jsonParse schema = none →
      generateDTOs schema className (some true) outcome =
        ⟨[genFailedToast, invalidSchemaToast], none⟩) := by
  constructor
  · intro v hv
    rcases hfail with h | ⟨b, h⟩ <;> subst h <;>
      simp [generateDTOs, hs, hc, hv]
  · intro hn
    simp [generateDTOs, hs, hc, hn]

/-- C4 witness: a rejected fetch with a parseable schema, and one with an
unparseable schema. -/
theorem C4_failure_fallback_witness :
    generateDTOs "\x7b\x7d" "C" (some true) .throws =
      ⟨[genFailedToast], some (.obj [], "C")⟩ ∧
    generateDTOs "nope" "C" (some true) .throws =
      ⟨[genFailedToast, invalidSchemaToast], none⟩ :=
  ⟨(C4_failure_fallback "\x7b\x7d" "C" .throws (by decide) (by decide)
      (Or.inl rfl)).1 (.obj []) (by decide),
   (C4_failure_fallback "nope" "C" .throws (by decide) (by decide)
      (Or.inl rfl)).2 (by decide)⟩

/-- C5: preview and register POST the same configJson body; the generate
endpoint receives the empty object with b2bName only in the URL; and
configJson carries the class name as requestClass (with the Java package
prepended) and as b2bName (lower-cased, trailing request removed),
together with the field-mapping and defaults components. -/
theorem C5_endpoint_payloads (fm : List (String × String))
    (d : List (String × JsValue)) (cn : String) :
    previewRequest fm d cn =
      ⟨"http://localhost:8083/b2b/preview", configJson fm d cn⟩ ∧
    registerRequest fm d cn =
      ⟨"http://localhost:8083/b2b/register", configJson fm d cn⟩ ∧
    (previewRequest fm d cn).body = (registerRequest fm d cn).body ∧
    generateRequest fm d cn =
      ⟨"http://localhost:8083/b2b/generate/" ++ b2bNameOf cn, .obj []⟩ ∧
    jsGet (configJson fm d cn) "b2bName" =
      .str (if jsEndsWith (jsToLower cn) "request" then
        jsDropLast (jsToLower cn) 7 else jsToLower cn) ∧
    jsGet (configJson fm d cn) "requestClass" =
      .str ("com.example.demoVersion.dto." ++ cn) ∧
    jsGet (configJson fm d cn) "fieldMapping" =
      .obj (cfgFieldMappingEntries fm d) ∧
    jsGet (configJson fm d cn) "defaults" = .obj (cfgDefaultsEntries d) := by
  refine ⟨rfl, rfl, rfl, ?_, ?_, ?_, ?_, ?_⟩ <;>
    simp [generateRequest, configJson, jsGet, jsLookup, b2bNameOf]

/-- C6: the mapping UI offers exactly the eight BASE_REQUEST_FIELDS
names, and in every state reachable by interactions addressing those
fields, every key of fieldMapping and of defaults is one of the eight. -/
theorem C6_fixed_target_fields :
    BASE_REQUEST_FIELDS.map (fun f => f.name) =
      ["sourceLocation.lat", "sourceLocation.lng", "sourceLocation.name",
       "sourceLocation.postcode", "currentLocation.lat",
       "currentLocation.lng", "destinationLocation.address", "userType"] ∧
    BASE_REQUEST_FIELDS.length = 8 ∧
    ∀ ops : List MapOp,
      (∀ op ∈ ops,
        op.baseField ∈ BASE_REQUEST_FIELDS.map (fun f => f.name)) →
      ∀ k ∈ stateKeys (applyOps emptyMapState ops),
        k ∈ BASE_REQUEST_FIELDS.map (fun f => f.name) :=
  ⟨rfl, rfl, fun ops hops =>
    keys_applyOps_subset ops emptyMapState hops
      (by simp [stateKeys, emptyMapState])⟩

/-- C6 witness: a concrete interaction sequence over the predefined
fields. -/
theorem C6_fixed_target_fields_witness :
    "currentLocation.lat" ∈ BASE_REQUEST_FIELDS.map (fun f => f.name) :=
  C6_fixed_target_fields.2.2
    [.fieldMap "userType" "a.b", .defaultVal "currentLocation.lat" "3"]
    (by decide) "currentLocation.lat" (by decide)

/-- C1, counterexample: the claim as stated is false.  Two sibling
properties may carry the same non-empty name; JavaScript object
assignment collapses them into one schema entry, so extractFields
returns one path where the tree has two leaves. -/
theorem C1_counterexample :
    namesOk
      [⟨"id1", "a", .string, true, [], false⟩,
       ⟨"id2", "a", .number, true, [], false⟩] = true ∧
    extractFields (generateJsonSchema
      [⟨"id1", "a", .string, true, [], false⟩,
       ⟨"id2", "a", .number, true, [], false⟩]) "" ≠
      specLeafPaths
        [⟨"id1", "a", .string, true, [], false⟩,
         ⟨"id2", "a", .number, true, [], false⟩] "" := by
  constructor
  · simp [namesOk]
  · have h1 : extractFields (generateJsonSchema
        [⟨"id1", "a", .string, true, [], false⟩,
         ⟨"id2", "a", .number, true, [], false⟩]) "" = ["a"] := by
      simp [generateJsonSchema, genEntries, jsAssign, jsSpread,
        PropType.jsonName, extractFields, extractEntryList, jsGet, jsLookup,
        jsTruthy, jsOrderedEntries, dedupKeys, dedupKeysAux,
        isArrayIndexName, sortByNum, insertByNum, List.filter]
    have h2 : specLeafPaths
        [⟨"id1", "a", .string, true, [], false⟩,
         ⟨"id2", "a", .number, true, [], false⟩] "" = ["a", "a"] := by
      simp [specLeafPaths]
    rw [h1, h2]
    decide

/-- C1 (amended): for every user-built property tree in which every
property has a non-empty name, every object-typed property has at least
one child, sibling properties have pairwise distinct names, and no name
is a canonical array-index string (JavaScript enumerates such keys
first), extractFields on the schema produced by generateJsonSchema
returns exactly the dot-notation paths of the tree's leaves, in the
tree's traversal order. -/
theorem C1_extract_inverts_generate (props : List SchemaProperty)
    (h1 : namesOk props = true) (h2 : siblingsOk props = true) :
    extractFields (generateJsonSchema props) "" = specLeafPaths props "" :=
  extract_roundtrip props "" h1 h2

/-- C1 witness: a two-level tree with a nested object. -/
theorem C1_extract_inverts_generate_witness :
    namesOk
      [⟨"i1", "a", .string, true, [], false⟩,
       ⟨"i2", "loc", .object, true,
         [⟨"i3", "lat", .number, true, [], false⟩], false⟩] = true ∧
    siblingsOk
      [⟨"i1", "a", .string, true, [], false⟩,
       ⟨"i2", "loc", .object, true,
         [⟨"i3", "lat", .number, true, [], false⟩], false⟩] = true ∧
    extractFields (generateJsonSchema
      [⟨"i1", "a", .string, true, [], false⟩,
       ⟨"i2", "loc", .object, true,
         [⟨"i3", "lat", .number, true, [], false⟩], false⟩]) "" =
      specLeafPaths
        [⟨"i1", "a", .string, true, [], false⟩,
         ⟨"i2", "loc", .object, true,
           [⟨"i3", "lat", .number, true, [], false⟩], false⟩] "" ∧
    specLeafPaths
      [⟨"i1", "a", .string, true, [], false⟩,
       ⟨"i2", "loc", .object, true,
         [⟨"i3", "lat", .number, true, [], false⟩], false⟩] "" =
      ["a", "loc.lat"] := by
  refine ⟨?_, ?_, ?_, ?_⟩
  · simp [namesOk]
  · simp [siblingsOk, distinctStrings, nodesOk, isArrayIndexName]
  · exact C1_extract_inverts_generate _ (by simp [namesOk])
      (by simp [siblingsOk, distinctStrings, nodesOk, isArrayIndexName])
  · simp [specLeafPaths]

/-- C8: every schema produced by generateJsonSchema is an object tag plus
a properties object each of whose entries, recursively, either has type
object and itself carries a nested properties object, or has one of the
five primitive types and carries no properties key. -/
theorem C8_objects_nest_leaves_dont (props : List SchemaProperty) :
    generateJsonSchema props =
      .obj [("type", .str "object"),
        ("properties", .obj (genEntries props []))] ∧
    (genEntries props []).all (fun kv => goodEntry kv.2) = true :=
  ⟨rfl, genEntries_good props [] rfl⟩

/-- C9: the serialized configuration never carries the two
currentLocation keys in its defaults object; a non-undefined default
entered for either appears instead under the same key inside
fieldMapping after coercion by parseValue, while every other default
entry stays in defaults (coerced by parseValue). -/
theorem C9_currentLocation_defaults_move (fm : List (String × String))
    (d : List (String × JsValue))
    (hd : distinctStrings (d.map (fun kv => kv.1)) = true) :
    jsLookup (cfgDefaultsEntries d) "currentLocation.lat" = none ∧
    jsLookup (cfgDefaultsEntries d) "currentLocation.lng" = none ∧
    (∀ v, jsLookup d "currentLocation.lat" = some v → v ≠ .undef →
      jsLookup (cfgFieldMappingEntries fm d) "currentLocation.lat" =
        some (parseValue v)) ∧
    (∀ v, jsLookup d "currentLocation.lng" = some v → v ≠ .undef →
      jsLookup (cfgFieldMappingEntries fm d) "currentLocation.lng" =
        some (parseValue v)) ∧
    (∀ k, k ≠ "currentLocation.lat" → k ≠ "currentLocation.lng" →
      jsLookup (cfgDefaultsEntries d) k = (jsLookup d k).map parseValue) := by
  have hnone : ∀ k2 : String, (k2 = "currentLocation.lat" ∨
      k2 = "currentLocation.lng") →
      jsLookup (cfgDefaultsEntries d) k2 = none := by
    intro k2 hk2
    have hfil : jsLookup ((jsOrderedEntries d).filter (fun kv =>
        kv.1 != "currentLocation.lat" && kv.1 != "currentLocation.lng"))
        k2 = none := by
      rw [jsLookup_eq_none_iff]
      intro kv hm
      have hp := (List.mem_filter.mp hm).2
      simp only [Bool.and_eq_true, bne_iff_ne, ne_eq] at hp
      rcases hk2 with hk2 | hk2 <;> rw [hk2]
      · exact hp.1
      · exact hp.2
    rw [cfgDefaultsEntries, jsLookup_map_value, hfil]
    rfl
  refine ⟨hnone _ (Or.inl rfl), hnone _ (Or.inr rfl), ?_, ?_, ?_⟩
  · intro v hv hne
    rw [cfgFieldMappingEntries]
    simp only [hv, if_pos hne]
    rcases hw : jsLookup d "currentLocation.lng" with _ | w
    · simp only [jsSpread_single, jsSpread_nil]
      rw [jsLookup_jsAssign_self]
    · by_cases hwu : w = JsValue.undef
      · simp only [if_neg (show ¬ w ≠ JsValue.undef from fun hcc => hcc hwu),
          jsSpread_single, jsSpread_nil]
        rw [jsLookup_jsAssign_self]
      · simp only [if_pos hwu, jsSpread_single]
        rw [jsLookup_jsAssign_other _ _ _ _ (by decide),
          jsLookup_jsAssign_self]
  · intro v hv hne
    rw [cfgFieldMappingEntries]
    simp only [hv, if_pos hne]
    rcases hw : jsLookup d "currentLocation.lat" with _ | w
    · simp only [jsSpread_single, jsSpread_nil]
      rw [jsLookup_jsAssign_self]
    · by_cases hwu : w = JsValue.undef
      · simp only [if_neg (show ¬ w ≠ JsValue.undef from fun hcc => hcc hwu),
          jsSpread_single, jsSpread_nil]
        rw [jsLookup_jsAssign_self]
      · simp only [if_pos hwu, jsSpread_single]
        rw [jsLookup_jsAssign_self]
  · intro k hk1 hk2
    rw [cfgDefaultsEntries, jsLookup_map_value,
      jsLookup_filter_keep (fun v => by simp [bne, hk1, hk2]),
      jsLookup_jsOrderedEntries d hd k]

/-- C9 witness: one currentLocation default and one ordinary default. -/
theorem C9_currentLocation_defaults_move_witness :
    jsLookup (cfgDefaultsEntries
      [("currentLocation.lat", .str "1.5"), ("userType", .str "x")])
      "currentLocation.lat" = none ∧
    jsLookup (cfgFieldMappingEntries [("a", "b")]
      [("currentLocation.lat", .str "1.5"), ("userType", .str "x")])
      "currentLocation.lat" = some (.num (.finite 15 (-1))) ∧
    jsLookup (cfgDefaultsEntries
      [("currentLocation.lat", .str "1.5"), ("userType", .str "x")])
      "userType" = some (.str "x") := by
  have h := C9_currentLocation_defaults_move [("a", "b")]
    [("currentLocation.lat", .str "1.5"), ("userType", .str "x")]
    (by decide)
  refine ⟨h.1, ?_, ?_⟩
  · have h2 := h.2.2.1 (.str "1.5") (by decide) (by decide)
    rw [h2]
    decide
  · have h3 := h.2.2.2.2 "userType" (by decide) (by decide)
    rw [h3]
    decide

/-- C10: parseValue is total and deterministic: non-strings pass through;
the strings true, false, null become the boolean true, the boolean false
and null; a string bracketed by square brackets or by braces becomes its
JSON.parse result when that parse succeeds and stays a string otherwise;
a string on which both Number and parseFloat are non-NaN becomes Number
of it; every other string is returned unchanged. -/
theorem C10_parseValue_coercion :
    (∀ v : JsValue, (∀ w, v ≠ .str w) → parseValue v = v) ∧
    parseValue (.str "true") = .bool true ∧
    parseValue (.str "false") = .bool false ∧
    parseValue (.str "null") = .null ∧
    (∀ s, (jsStartsWith s "[" && jsEndsWith s "]") = true →
      (∀ w, jsonParse s = some w → parseValue (.str s) = w) ∧
      (jsonParse s = none → parseValue (.str s) = .str s)) ∧
    (∀ s, (jsStartsWith s "\x7b" && jsEndsWith s "\x7d") = true →
      (∀ w, jsonParse s = some w → parseValue (.str s) = w) ∧
      (jsonParse s = none → parseValue (.str s) = .str s)) ∧
    (∀ s n, jsNumberOf s = some n → jsParseFloatDefined s = true →
      parseValue (.str s) = .num n) ∧
    (∀ s, s ≠ "true" → s ≠ "false" → s ≠ "null" →
      (jsStartsWith s "[" && jsEndsWith s "]") = false →
      (jsStartsWith s "\x7b" && jsEndsWith s "\x7d") = false →
      ((jsNumberOf s).isSome && jsParseFloatDefined s) = false →
      parseValue (.str s) = .str s) := by
  refine ⟨?_, by decide, by decide, by decide, ?_, ?_, ?_, ?_⟩
  · intro v hv
    match v with
    | .undef | .null | .bool _ | .num _ | .arr _ | .obj _ => rfl
    | .str w => exact absurd rfl (hv w)
  · intro s hbr
    obtain ⟨cs, hcs⟩ := jsStartsWith_single (by rfl)
      (Bool.and_elim_left hbr)
    have h1 : s ≠ "true" := ne_of_head hcs (by decide)
    have h2 : s ≠ "false" := ne_of_head hcs (by decide)
    have h3 : s ≠ "null" := ne_of_head hcs (by decide)
    constructor
    · intro w hw
      simp [parseValue, h1, h2, h3, hbr, hw]
    · intro hw
      simp [parseValue, h1, h2, h3, hbr, hw]
  · intro s hbr
    obtain ⟨cs, hcs⟩ := jsStartsWith_single (by rfl)
      (Bool.and_elim_left hbr)
    have h1 : s ≠ "true" := ne_of_head hcs (by decide)
    have h2 : s ≠ "false" := ne_of_head hcs (by decide)
    have h3 : s ≠ "null" := ne_of_head hcs (by decide)
    have h4 : (jsStartsWith s "[" && jsEndsWith s "]") = false := by
      rw [jsStartsWith, hcs]
      simp [headMatches]
    constructor
    · intro w hw
      simp [parseValue, h1, h2, h3, h4, hbr, hw]
    · intro hw
      simp [parseValue, h1, h2, h3, h4, hbr, hw]
  · intro s n hn hpf
    have h1 : s ≠ "true" := by
      intro he
      rw [he] at hn
      rw [show jsNumberOf "true" = none from by decide] at hn
      exact Option.noConfusion hn
    have h2 : s ≠ "false" := by
      intro he
      rw [he] at hn
      rw [show jsNumberOf "false" = none from by decide] at hn
      exact Option.noConfusion hn
    have h3 : s ≠ "null" := by
      intro he
      rw [he] at hn
      rw [show jsNumberOf "null" = none from by decide] at hn
      exact Option.noConfusion hn
    have h4 : (jsStartsWith s "[" && jsEndsWith s "]") = false := by
      by_cases hb : jsStartsWith s "[" = true
      · obtain ⟨cs, hcs⟩ := jsStartsWith_single (by rfl) hb
        rw [jsNumberOf_head_open (Or.inl hcs)] at hn
        exact Option.noConfusion hn
      · simp only [Bool.not_eq_true] at hb
        simp [hb]
    have h5 : (jsStartsWith s "\x7b" && jsEndsWith s "\x7d") = false := by
      by_cases hb : jsStartsWith s "\x7b" = true
      · obtain ⟨cs, hcs⟩ := jsStartsWith_single (by rfl) hb
        rw [jsNumberOf_head_open (Or.inr hcs)] at hn
        exact Option.noConfusion hn
      · simp only [Bool.not_eq_true] at hb
        simp [hb]
    simp [parseValue, h1, h2, h3, h4, h5, hn, hpf]
  · intro s h1 h2 h3 h4 h5 h6
    simp only [Bool.and_eq_false_iff] at h6
    rcases h6 with h6 | h6
    · have h7 : jsNumberOf s = none := by
        rcases hv : jsNumberOf s with _ | n
        · rfl
        · rw [hv] at h6
          simp at h6
      simp [parseValue, h1, h2, h3, h4, h5, h7]
    · simp [parseValue, h1, h2, h3, h4, h5, h6]

/-- C10 witness: one value per branch of the coercion. -/
theorem C10_parseValue_coercion_witness :
    parseValue (.bool true) = .bool true ∧
    parseValue (.str "true") = .bool true ∧
    parseValue (.str "[1]") = .arr [.num (.finite 1 0)] ∧
    parseValue (.str "[oops]") = .str "[oops]" ∧
    parseValue (.str "1.5") = .num (.finite 15 (-1)) ∧
    parseValue (.str "abc") = .str "abc" :=
  ⟨C10_parseValue_coercion.1 (.bool true) (fun w => by simp),
   C10_parseValue_coercion.2.1,
   (C10_parseValue_coercion.2.2.2.2.1 "[1]" (by decide)).1
     (.arr [.num (.finite 1 0)]) (by decide),
   (C10_parseValue_coercion.2.2.2.2.1 "[oops]" (by decide)).2 (by decide),
   C10_parseValue_coercion.2.2.2.2.2.2.1 "1.5" (.finite 15 (-1))
     (by decide) (by decide),
   C10_parseValue_coercion.2.2.2.2.2.2.2 "abc" (by decide) (by decide)
     (by decide) (by decide) (by decide) (by decide)⟩

end DtoMap
